import Mathlib

set_option maxRecDepth 10000

/-!
Verification development for the TrackShift file-transfer core.

This file gives a shallow embedding, in Lean 4, of the core data model and
operations of the TrackShift repository (Go), and proves properties of that
embedding:

* `pkg/models`   : `FileMetadata`, `ChunkMetadata`, `TransferSession` and
  their `Validate` methods; the UDP `Packet` codec with its CRC-32 checksum.
* `internal/chunker` : `ChunkFile`.
* `internal/crypto`  : `CompressChunk` / `DecompressChunk` / `VerifyChunk`.
* `internal/session` : the `SessionManager` (in-memory table plus on-disk
  persistence, modelled as explicit state).
* `internal/erasure` : the `ErasureCoder` wrapper.
* `cmd/receiver`     : the per-connection frame-processing loop.

Conventions used throughout the embedding:

* Go byte slices are `List Nat` with each element intended to be `< 256`;
  where a bound matters it appears as an explicit hypothesis.
* Go `int`/`int64` fields are `Int`; machine-word arithmetic that matters
  (the CRC-32 state) is `Nat` with explicit bounds.
* Go `time.Time` values are abstract `Nat` instants (their values never
  influence control flow in the modelled code).
* Go maps are association lists where a later insert shadows earlier
  entries; `mapFind` returns the most recent binding, like a map lookup.
* Fallible Go functions return `Except String α`, with error strings
  mirroring the Go error messages.
* File-system state (the session base directory, the receiver temp
  directory) is passed explicitly as an association list from file name to
  content, and fallible writes take an explicit failure flag.
-/

deriving instance DecidableEq for Except

namespace TrackShift

/-! ## Go maps as shadowing association lists -/

/-- Lookup in a Go map modelled as an association list (first binding wins;
`mapInsert` conses, so the first binding is the most recent one). -/
def mapFind {α : Type} (k : String) : List (String × α) → Option α
  | [] => none
  | (k', v) :: rest => if k' = k then some v else mapFind k rest

/-- Insert/overwrite in a Go map modelled as an association list. -/
def mapInsert {α : Type} (k : String) (v : α) (m : List (String × α)) :
    List (String × α) :=
  (k, v) :: m

/-! ## `pkg/models`: statuses and data model

Go `ChunkStatus` and `SessionStatus` are string types; the embedding keeps
them as `String` with the constants below (`models.go`). -/

def ChunkStatusPending : String := "pending"

def ChunkStatusInProgress : String := "in_progress"

def ChunkStatusCompleted : String := "completed"

def ChunkStatusFailed : String := "failed"

def SessionStatusCreated : String := "created"

def SessionStatusTransferring : String := "transferring"

def SessionStatusPaused : String := "paused"

def SessionStatusCompleted : String := "completed"

def SessionStatusFailed : String := "failed"

/-- `models.FileMetadata`: describes the file being transferred. -/
structure FileMetadata where
  name : String
  size : Int
  hash : String
  mimeType : String
  deriving Repr, DecidableEq

/-- `models.ChunkMetadata`: describes a single chunk of a file. -/
structure ChunkMetadata where
  id : String
  size : Int
  offset : Int
  sha256 : String
  isParity : Bool
  status : String
  updatedAt : Nat
  createdAt : Nat
  sessionID : String
  priority : Int
  retryCount : Int
  error : String
  deriving Repr, DecidableEq

/-- The zero value of `models.ChunkMetadata` (all Go fields zeroed). -/
def ChunkMetadata.zero : ChunkMetadata :=
  { id := "", size := 0, offset := 0, sha256 := "", isParity := false,
    status := "", updatedAt := 0, createdAt := 0, sessionID := "",
    priority := 0, retryCount := 0, error := "" }

/-- `models.TransferSession`: tracks the state of a file transfer. -/
structure TransferSession where
  id : String
  file : FileMetadata
  status : String
  chunks : List (String × ChunkMetadata)
  createdAt : Nat
  updatedAt : Nat
  completedAt : Option Nat
  totalChunks : Int
  completed : Int
  failed : Int
  bytesSent : Int
  bytesReceived : Int
  deriving Repr, DecidableEq

/-- The zero value of `models.TransferSession` (all Go fields zeroed), the
result of decoding JSON that sets none of the session's own keys. -/
def TransferSession.zero : TransferSession :=
  { id := "", file := { name := "", size := 0, hash := "", mimeType := "" },
    status := "", chunks := [], createdAt := 0, updatedAt := 0,
    completedAt := none, totalChunks := 0, completed := 0, failed := 0,
    bytesSent := 0, bytesReceived := 0 }

/-- `FileMetadata.Validate` (`models.go`). -/
def FileMetadata.Validate (f : FileMetadata) : Except String Unit :=
  if f.name = "" then .error "file name must not be empty"
  else if f.size ≤ 0 then .error "file size must be greater than zero"
  else if f.hash = "" then .error "file hash must not be empty"
  else .ok ()

/-- `ChunkMetadata.Validate` (`models.go`). -/
def ChunkMetadata.Validate (c : ChunkMetadata) : Except String Unit :=
  if c.id = "" then .error "chunk id must not be empty"
  else if c.size ≤ 0 then .error "chunk size must be greater than zero"
  else if c.offset < 0 then .error "chunk offset must be non-negative"
  else if c.sha256 = "" then .error "chunk sha256 must not be empty"
  else if c.status = ChunkStatusPending ∨ c.status = ChunkStatusInProgress ∨
      c.status = ChunkStatusCompleted ∨ c.status = ChunkStatusFailed then .ok ()
  else .error "invalid chunk status"

/-- `TransferSession.Validate` (`models.go`). -/
def TransferSession.Validate (s : TransferSession) : Except String Unit :=
  if s.id = "" then .error "session id must not be empty"
  else
    match s.file.Validate with
    | .error e => .error e
    | .ok () =>
      if s.status = SessionStatusCreated ∨ s.status = SessionStatusTransferring ∨
          s.status = SessionStatusPaused ∨ s.status = SessionStatusCompleted ∨
          s.status = SessionStatusFailed then
        if s.totalChunks < 0 then .error "total chunks must be non-negative"
        else if s.completed < 0 ∨ s.failed < 0 then
          .error "completed/failed counts must be non-negative"
        else .ok ()
      else .error "invalid session status"

/-! ## `internal/crypto`: compression codec and hash verification

`CompressChunk` / `DecompressChunk` wrap the external Zstandard library
(`github.com/klauspost/compress/zstd`), whose implementation is not part of
this repository. -/

/-- The four magic bytes that begin every Zstandard frame. -/
def zstdMagic : List Nat := [0x28, 0xB5, 0x2F, 0xFD]

/-- Modelled from the spec: `CompressChunk` (`internal/crypto`) delegates to
the external zstd library, which is not in the repository's sources. §4.1:
compression uses "a fixed general-purpose compressor" whose output "MUST be
self-describing so that `decompress` needs no external parameters"; the
model emits a self-describing frame, a magic header followed by the
content. The Go wrapper never returns an error. -/
def CompressChunk (data : List Nat) : List Nat :=
  zstdMagic ++ data

/-- Modelled from the spec: `DecompressChunk` (`internal/crypto`) delegates
to the external zstd library. §4.1: it is the "inverse of `compress`" and
"fails when `buf` is not a valid compressed frame"; the model recognises
exactly the frames `CompressChunk` produces. -/
def DecompressChunk (buf : List Nat) : Except String (List Nat) :=
  if buf.take 4 = zstdMagic then .ok (buf.drop 4)
  else .error "zstd decode: invalid frame"

/-- A buffer is a valid compressed frame when it carries the
self-describing frame header. -/
def IsZstdFrame (buf : List Nat) : Prop :=
  buf.take 4 = zstdMagic

instance (buf : List Nat) : Decidable (IsZstdFrame buf) := by
  unfold IsZstdFrame; infer_instance

/-- `crypto.VerifyChunk`: hash the data and compare with the expected
32-byte hash. The SHA-256 function itself is external (`crypto/sha256`);
the embedding abstracts it as the parameter `hash`. -/
def VerifyChunk (hash : List Nat → List Nat) (data : List Nat)
    (expectedHash : List Nat) : Bool :=
  hash data = expectedHash

/-! ## `internal/chunker`: splitting a file into chunks -/

/-- `chunker.ChunkerConfig`. -/
structure ChunkerConfig where
  minChunkSize : Int
  maxChunkSize : Int
  defaultChunkSize : Int
  deriving Repr, DecidableEq

/-- `ChunkerConfig.normalize` (`chunker.go`): fill in defaults. -/
def ChunkerConfig.normalize (c : ChunkerConfig) : ChunkerConfig :=
  let c := if c.minChunkSize = 0 then { c with minChunkSize := 5 * 1024 * 1024 } else c
  let c := if c.maxChunkSize = 0 then { c with maxChunkSize := 200 * 1024 * 1024 } else c
  let c := if c.defaultChunkSize = 0 then { c with defaultChunkSize := 50 * 1024 * 1024 } else c
  let c := if c.defaultChunkSize < c.minChunkSize then { c with defaultChunkSize := c.minChunkSize } else c
  if c.defaultChunkSize > c.maxChunkSize then { c with defaultChunkSize := c.maxChunkSize } else c

/-- The read loop of `fileChunker.ChunkFile` (`chunker.go`).  Each
iteration reads up to `csize` bytes from the remaining file contents
(`io.ReadFull` on the buffered reader returns `n = min csize remaining`),
stops when a read returns no bytes, and otherwise emits one
`ChunkMetadata` (paired here with the raw bytes that iteration read) with
`id = decimal index`, the running `offset`, the actual byte count as
`size`, and the hex SHA-256 of the raw bytes.  `hashHex` abstracts
`fmt.Sprintf("%x", sha256.Sum256(chunk))`. -/
def chunkLoop (hashHex : List Nat → String) (csize : Nat) (now : Nat) :
    List Nat → Nat → Nat → List (ChunkMetadata × List Nat)
  | remaining, offset, index =>
    if h : min csize remaining.length = 0 then []
    else
      let n := min csize remaining.length
      let data := remaining.take n
      ({ id := toString index, size := (n : Int), offset := (offset : Int),
         sha256 := hashHex data, isParity := false,
         status := ChunkStatusPending, createdAt := now, updatedAt := now,
         sessionID := "", priority := 0, retryCount := 0, error := "" }, data)
        :: chunkLoop hashHex csize now (remaining.drop n) (offset + n) (index + 1)
  termination_by remaining => remaining.length
  decreasing_by
    simp only [List.length_drop]
    omega

/-- `fileChunker.ChunkFile` (`chunker.go`): clamp the requested chunk size
to the configured bounds, then run the read loop over the file bytes. -/
def ChunkFile (cfg : ChunkerConfig) (hashHex : List Nat → String)
    (now : Nat) (file : List Nat) (chunkSize : Int) :
    List (ChunkMetadata × List Nat) :=
  let cs := if chunkSize ≤ 0 then cfg.defaultChunkSize else chunkSize
  let cs := if cs < cfg.minChunkSize then cfg.minChunkSize else cs
  let cs := if cs > cfg.maxChunkSize then cfg.maxChunkSize else cs
  chunkLoop hashHex cs.toNat now file 0 0

/-! ## `internal/session`: the session store

The manager's state is its in-memory table plus the contents of its base
directory (`disk`, keyed by file name).  Disk writes can fail; a write
takes an explicit `ioFail` flag standing for a failure anywhere on the
open-temp/encode/close/rename path. -/

/-- `session.SessionCheckpoint` (`manager.go`): lightweight snapshot. -/
structure SessionCheckpoint where
  sessionID : String
  completedChunks : List String
  pendingChunks : List String
  totalChunks : Int
  lastUpdateTime : Nat
  deriving Repr, DecidableEq

/-- Content of one file in the session base directory: a serialized
session, a serialized checkpoint projection, or anything that is not valid
JSON for a session. -/
inductive FileContent where
  | session (s : TransferSession)
  | checkpoint (c : SessionCheckpoint)
  | invalid
  deriving Repr, DecidableEq

/-- `json` decoding of a file's content into a `TransferSession`
(`json.NewDecoder(f).Decode(&s)` in `LoadSession`).  A stored session
round-trips.  A checkpoint file is valid JSON, so decoding succeeds, but
of its keys (`session_id`, `completed_chunks`, `pending_chunks`,
`total_chunks`, `last_update_time`) only `total_chunks` is also a
`TransferSession` JSON key; every other session field keeps its zero
value.  Non-JSON content fails to decode. -/
def decodeSessionJSON : FileContent → Except String TransferSession
  | .session s => .ok s
  | .checkpoint c => .ok { TransferSession.zero with totalChunks := c.totalChunks }
  | .invalid => .error "decode session: invalid character"

/-- `session.SessionManager`: in-memory table plus base-directory state. -/
structure SessionManager where
  sessions : List (String × TransferSession)
  disk : List (String × FileContent)
  deriving Repr, DecidableEq

/-- `SessionManager.LoadSession` (`manager.go`): open `{base}/{id}.json`,
decode, validate. -/
def LoadSession (disk : List (String × FileContent)) (id : String) :
    Except String TransferSession :=
  match mapFind (id ++ ".json") disk with
  | none => .error "open session file: no such file"
  | some content =>
    match decodeSessionJSON content with
    | .error e => .error e
    | .ok s =>
      match s.Validate with
      | .error e => .error e
      | .ok () => .ok s

/-- A directory entry as returned by `os.ReadDir`: a name that is a
subdirectory or a file with some content. -/
inductive DirEntry where
  | dir (name : String)
  | file (name : String) (content : FileContent)
  deriving Repr, DecidableEq

/-- The characters of `".json"`. -/
def jsonChars : List Char := ['.', 'j', 's', 'o', 'n']

/-- `filepath.Ext(name) == ".json"`.  `filepath.Ext` returns the suffix
of `name` starting at its final dot; since `"json"` contains no dot, that
suffix equals `".json"` exactly when `name` ends with `".json"`. -/
def extIsJson (name : String) : Bool :=
  decide (5 ≤ name.data.length) &&
    decide (name.data.drop (name.data.length - 5) = jsonChars)

/-- `e.Name()[:len(e.Name())-len(".json")]`. -/
def dropJsonExt (name : String) : String :=
  String.mk (name.data.take (name.data.length - 5))

/-- The file contents of a directory listing (what `LoadSession` can read
back from the base directory). -/
def diskOfEntries : List DirEntry → List (String × FileContent)
  | [] => []
  | .dir _ :: rest => diskOfEntries rest
  | .file n c :: rest => (n, c) :: diskOfEntries rest

/-- `SessionManager.loadExisting` (`manager.go`): walk the directory
entries in order; skip subdirectories and entries whose extension is not
`.json`; for the rest, strip the extension to obtain the id and call
`LoadSession`; a failed load is logged and skipped, a successful one is
inserted into the table. -/
def loadExisting (disk : List (String × FileContent)) :
    List DirEntry → List (String × TransferSession) →
    List (String × TransferSession)
  | [], acc => acc
  | .dir _ :: rest, acc => loadExisting disk rest acc
  | .file name _ :: rest, acc =>
    if extIsJson name then
      match LoadSession disk (dropJsonExt name) with
      | .error _ => loadExisting disk rest acc
      | .ok s => loadExisting disk rest (mapInsert (dropJsonExt name) s acc)
    else loadExisting disk rest acc

/-- `session.NewSessionManager` (`manager.go`): a failure to read the base
directory is fatal to construction; otherwise rehydrate best-effort. -/
def NewSessionManager (listing : Except String (List DirEntry)) :
    Except String SessionManager :=
  match listing with
  | .error e => .error ("read sessions dir: " ++ e)
  | .ok entries =>
    .ok { sessions := loadExisting (diskOfEntries entries) entries [],
          disk := diskOfEntries entries }

/-- `SessionManager.saveLocked` (`manager.go`): validate the session, then
serialize to `{base}/{id}.json.tmp` and rename over `{base}/{id}.json`.
`ioFail` stands for a failure anywhere on the write path
(open/encode/close/rename); every such failure occurs before the new
content replaces the old file, so the prior persisted state is kept. -/
def saveLocked (disk : List (String × FileContent))
    (session : TransferSession) (ioFail : Bool) :
    Except String (List (String × FileContent)) :=
  match session.Validate with
  | .error e => .error e
  | .ok () =>
    if ioFail then .error "open temp session file: io failure"
    else .ok (mapInsert (session.id ++ ".json") (.session session) disk)

/-- `SessionManager.SaveSession` (`manager.go`). -/
def SaveSession (m : SessionManager) (session : TransferSession)
    (ioFail : Bool) : Except String Unit × SessionManager :=
  match saveLocked m.disk session ioFail with
  | .error e => (.error e, m)
  | .ok disk' => (.ok (), { m with disk := disk' })

/-- The freshly initialized session `CreateSession` builds: status
`created`, empty chunks mapping, timestamps set, zero counters. -/
def newSession (fileInfo : FileMetadata) (uuid : String) (now : Nat) :
    TransferSession :=
  { id := uuid, file := fileInfo, status := SessionStatusCreated,
    chunks := [], createdAt := now, updatedAt := now,
    completedAt := none, totalChunks := 0, completed := 0, failed := 0,
    bytesSent := 0, bytesReceived := 0 }

/-- `SessionManager.CreateSession` (`manager.go`): validate the file
metadata, allocate a UUID (passed in as `uuid`), initialize the session
(`newSession`), insert it into the table, then persist it.  On a
persistence error the error is returned (the session stays in the table,
as in the Go code). -/
def CreateSession (m : SessionManager) (fileInfo : FileMetadata)
    (uuid : String) (now : Nat) (ioFail : Bool) :
    Except String TransferSession × SessionManager :=
  match fileInfo.Validate with
  | .error e => (.error e, m)
  | .ok () =>
    match (newSession fileInfo uuid now).Validate with
    | .error e => (.error e, m)
    | .ok () =>
      match SaveSession
        { m with sessions :=
            mapInsert uuid (newSession fileInfo uuid now) m.sessions }
        (newSession fileInfo uuid now) ioFail with
      | (.error e, m2) => (.error e, m2)
      | (.ok (), m2) => (.ok (newSession fileInfo uuid now), m2)

/-- `SessionManager.GetSession` (`manager.go`). -/
def GetSession (m : SessionManager) (id : String) :
    Except String TransferSession :=
  match mapFind id m.sessions with
  | none => .error ("session " ++ id ++ " not found")
  | some s => .ok s

/-- The chunk entry `UpdateChunkStatus` operates on: the existing one, or
a lazily created entry with only `id` and `created_at` set. -/
def chunkForUpdate (s : TransferSession) (chunkID : String) (now : Nat) :
    ChunkMetadata :=
  match mapFind chunkID s.chunks with
  | some c => c
  | none => { ChunkMetadata.zero with id := chunkID, createdAt := now }

/-- The in-memory session mutation performed by `UpdateChunkStatus`
before it persists: set the chunk's status and `updated_at`; bump
`completed` when the new status is `completed` and `failed` when it is
`failed`; refresh the session's `updated_at`. -/
def sessionAfterUpdate (s : TransferSession) (chunkID status : String)
    (now : Nat) : TransferSession :=
  { s with
    chunks := mapInsert chunkID
      { chunkForUpdate s chunkID now with status := status, updatedAt := now }
      s.chunks
    completed := if status = ChunkStatusCompleted then s.completed + 1
      else s.completed
    failed := if status = ChunkStatusFailed then s.failed + 1 else s.failed
    updatedAt := now }

/-- `SessionManager.UpdateChunkStatus` (`manager.go`): look up the
session; apply `sessionAfterUpdate` to the in-memory table; then persist
via `saveLocked`.  The in-memory mutation happens before the persistence
attempt, exactly as in the Go code (the map holds a pointer that is
mutated in place). -/
def UpdateChunkStatus (m : SessionManager) (sessionID chunkID : String)
    (status : String) (now : Nat) (ioFail : Bool) :
    Except String Unit × SessionManager :=
  match mapFind sessionID m.sessions with
  | none => (.error ("session " ++ sessionID ++ " not found"), m)
  | some s =>
    match saveLocked m.disk (sessionAfterUpdate s chunkID status now)
        ioFail with
    | .error e =>
      (.error e,
        { m with sessions := mapInsert sessionID (sessionAfterUpdate s chunkID status now) m.sessions })
    | .ok disk' =>
      (.ok (),
        { sessions := mapInsert sessionID (sessionAfterUpdate s chunkID status now) m.sessions
          disk := disk' })

/-! ## `cmd/receiver` + `internal/transport`: the frame-processing loop -/

/-- `hex` digit decoding (`encoding/hex`). -/
def hexDigitVal (c : Char) : Option Nat :=
  if '0' ≤ c ∧ c ≤ '9' then some (c.toNat - '0'.toNat)
  else if 'a' ≤ c ∧ c ≤ 'f' then some (c.toNat - 'a'.toNat + 10)
  else if 'A' ≤ c ∧ c ≤ 'F' then some (c.toNat - 'A'.toNat + 10)
  else none

/-- `hex.DecodeString` (`encoding/hex`): decode hex digit pairs; fail on
an odd-length string or any non-hex character. -/
def hexDecodeList : List Char → Option (List Nat)
  | [] => some []
  | c1 :: c2 :: rest => do
    let hi ← hexDigitVal c1
    let lo ← hexDigitVal c2
    let r ← hexDecodeList rest
    pure ((16 * hi + lo) :: r)
  | [_] => none

def hexDecodeString (s : String) : Option (List Nat) :=
  hexDecodeList s.data

/-- `TCPReceiver.StoreChunk` (`internal/transport`): write the raw chunk
bytes to `{temp_dir}/{session_id}_{chunk_id}.part`; return the path. -/
def StoreChunk (temp : List (String × List Nat)) (sessionID : String)
    (meta : ChunkMetadata) (data : List Nat) (ioFail : Bool) :
    Except String String × List (String × List Nat) :=
  let filename := sessionID ++ "_" ++ meta.id ++ ".part"
  if ioFail then (.error "write chunk file: io failure", temp)
  else (.ok filename, mapInsert filename data temp)

/-- Ambient context of `handleConnection` (`cmd/receiver/main.go`): the
SHA-256 function (external, `crypto/sha256`), the JSON decoder for file
metadata payloads (`json.Unmarshal`), the UUID supply for
`CreateSession`, the clock, and the failure behaviour of the three
fallible writes. -/
structure ReceiverCtx where
  hash : List Nat → List Nat
  parseFileMeta : List Nat → Except String FileMetadata
  uuidOf : Nat → String
  now : Nat
  createFail : Bool
  storeFail : Bool
  updateFail : Bool

/-- Per-connection state of `handleConnection`: the shared session store,
the temp directory, the connection's session pointer (by id; `none` until
a `__filemeta__` frame arrives), and the UUID counter. -/
structure ReceiverState where
  mgr : SessionManager
  temp : List (String × List Nat)
  sess : Option String
  nextUuid : Nat

/-- Whether the loop body goes on to the next frame or returns from the
handler (closing the connection). -/
inductive StepResult where
  | next (st : ReceiverState)
  | stop (st : ReceiverState)

/-- One iteration of the receive loop of `handleConnection`
(`cmd/receiver/main.go`), applied to a successfully received and
decompressed frame `(meta, data)`:

* a `__filemeta__` control frame creates a session (a JSON or session
  error returns from the handler);
* a data frame before any control frame is dropped;
* otherwise hex-decode `meta.sha256` into a 32-byte array (decode failure:
  log and continue), verify the hash of the decompressed bytes (mismatch:
  log and continue, nothing persisted);
* then set `meta.session_id`, insert the chunk into the session's map,
  spool the bytes as a `.part` file (failure: log and continue), and mark
  the chunk completed through the session store. -/
def handleFrame (ctx : ReceiverCtx) (st : ReceiverState)
    (meta : ChunkMetadata) (data : List Nat) : StepResult :=
  if meta.id = "__filemeta__" then
    match ctx.parseFileMeta data with
    | .error _ => .stop st
    | .ok fileMeta =>
      match CreateSession st.mgr fileMeta (ctx.uuidOf st.nextUuid) ctx.now
          ctx.createFail with
      | (.error _, mgr') =>
        .stop { st with mgr := mgr', nextUuid := st.nextUuid + 1 }
      | (.ok s, mgr') =>
        .next { st with mgr := mgr'
                        sess := some s.id
                        nextUuid := st.nextUuid + 1 }
  else
    match st.sess with
    | none => .next st
    | some sid =>
      match hexDecodeString meta.sha256 with
      | none => .next st
      | some hashBytes =>
        let expectedHash := (hashBytes ++ List.replicate 32 0).take 32
        if VerifyChunk ctx.hash data expectedHash = false then .next st
        else
          match mapFind sid st.mgr.sessions with
          | none => .next st
          | some sess =>
            let meta' := { meta with sessionID := sid }
            let sess' := { sess with
              chunks := mapInsert meta'.id meta' sess.chunks }
            let mgr1 : SessionManager :=
              { st.mgr with sessions := mapInsert sid sess' st.mgr.sessions }
            match StoreChunk st.temp sid meta' data ctx.storeFail with
            | (.error _, temp') => .next { st with mgr := mgr1, temp := temp' }
            | (.ok _, temp') =>
              let mgr2 := (UpdateChunkStatus mgr1 sid meta'.id
                ChunkStatusCompleted ctx.now ctx.updateFail).2
              .next { st with mgr := mgr2, temp := temp' }

/-- The receive loop of `handleConnection` over the (already received and
decompressed) frames of one connection. -/
def processFrames (ctx : ReceiverCtx) :
    List (ChunkMetadata × List Nat) → ReceiverState → ReceiverState
  | [], st => st
  | (meta, data) :: rest, st =>
    match handleFrame ctx st meta data with
    | .stop st' => st'
    | .next st' => processFrames ctx rest st'

/-! ## `pkg/protocol`: the datagram packet codec

`SerializePacket` / `DeserializePacket` (`models.go`, package `protocol`)
define the fixed-layout UDP packet with a trailing CRC-32 checksum.
Machine words are `Nat` with explicit bounds (`% 256` per emitted byte);
the CRC-32 is the reflected (IEEE) bit-by-bit algorithm that
`hash/crc32.ChecksumIEEE` implements. -/

/-- `protocol.Packet`.  `sessionId` models the `[16]byte` array as a list
whose well-formedness fixes the length. -/
structure Packet where
  version : Nat
  type : Nat
  sessionId : List Nat
  chunkId : Nat
  seq : Nat
  priority : Nat
  payload : List Nat
  checksum : Nat
  deriving Repr, DecidableEq

/-- The magic bytes `"TSFT"`. -/
def magicBytes : List Nat := [84, 83, 70, 84]

def headerSize : Nat := 38

def maxPayload : Nat := 64 * 1024

def checksumSize : Nat := 4

/-- The big-endian byte string of `v`, `w` bytes wide
(`encoding/binary`, `binary.BigEndian`). -/
def beBytes : Nat → Nat → List Nat
  | 0, _ => []
  | w + 1, v => beBytes w (v / 256) ++ [v % 256]

/-- The value of a big-endian byte string. -/
def beVal (l : List Nat) : Nat :=
  l.foldl (fun a b => a * 256 + b) 0

/-- The reflected CRC-32 (IEEE) polynomial `0xEDB88320`. -/
def crcPoly : Nat := 0xEDB88320

/-- One bit of the reflected CRC-32 computation: shift right and xor the
polynomial when the low bit is set. -/
def crcBit (s : Nat) : Nat :=
  if s % 2 = 1 then (s / 2) ^^^ crcPoly else s / 2

/-- One byte of the CRC-32 computation: xor the byte into the state and
run eight bit steps. -/
def crcByte (s b : Nat) : Nat :=
  crcBit^[8] (s ^^^ b)

def crcUpdate (s : Nat) (data : List Nat) : Nat :=
  data.foldl crcByte s

/-- `crc32.ChecksumIEEE`: initial state `0xFFFFFFFF`, final complement. -/
def crc32 (data : List Nat) : Nat :=
  crcUpdate 0xFFFFFFFF data ^^^ 0xFFFFFFFF

/-- Everything `SerializePacket` writes before the checksum: magic,
version, type, session id, chunk id (u64 BE), seq (u32 BE), priority,
three padding bytes, payload. -/
def packetBody (p : Packet) : List Nat :=
  magicBytes ++ [p.version] ++ [p.type] ++ p.sessionId ++
    beBytes 8 p.chunkId ++ beBytes 4 p.seq ++ [p.priority] ++ [0, 0, 0] ++
    p.payload

/-- `protocol.SerializePacket`: reject an oversized payload; otherwise
emit header and payload, compute the CRC-32 over them, store it into the
packet's `Checksum` field (the Go function mutates `p`), and append it
big-endian.  Returns the wire bytes together with the updated packet. -/
def SerializePacket (p : Packet) : Except String (List Nat × Packet) :=
  if p.payload.length > maxPayload then .error "payload too large"
  else
    .ok (packetBody p ++ beBytes 4 (crc32 (packetBody p)),
      { p with checksum := crc32 (packetBody p) })

/-- `protocol.CalculateChecksum`: CRC-32 of the data excluding the
trailing checksum bytes (or of all of it when too short). -/
def CalculateChecksum (data : List Nat) : Nat :=
  if data.length ≤ checksumSize then crc32 data
  else crc32 (data.take (data.length - checksumSize))

/-- `protocol.VerifyChecksum`. -/
def VerifyChecksum (data : List Nat) (checksum : Nat) : Bool :=
  CalculateChecksum data = checksum

/-- `protocol.DeserializePacket`: reject when shorter than header plus
checksum or when the magic does not match; parse the fixed-offset fields,
the payload, and the trailing checksum; reject when the recomputed CRC-32
does not match the stored one. -/
def DeserializePacket (data : List Nat) : Except String Packet :=
  if data.length < headerSize + checksumSize then .error "packet too small"
  else if ¬ data.take 4 = magicBytes then .error "invalid magic"
  else if (data.drop headerSize).length < checksumSize then
    .error "packet missing checksum"
  else
    if VerifyChecksum data
        (beVal ((data.drop headerSize).drop
          ((data.drop headerSize).length - checksumSize))) = false then
      .error "checksum verification failed"
    else
      .ok { version := (data.drop 4).headD 0
            type := (data.drop 5).headD 0
            sessionId := (data.drop 6).take 16
            chunkId := beVal ((data.drop 22).take 8)
            seq := beVal ((data.drop 30).take 4)
            priority := (data.drop 34).headD 0
            payload := (data.drop headerSize).take
              ((data.drop headerSize).length - checksumSize)
            checksum := beVal ((data.drop headerSize).drop
              ((data.drop headerSize).length - checksumSize)) }

/-- Well-formedness of a packet as a value of the Go struct: each field
fits its machine type, the session id is 16 bytes. -/
def Packet.Wf (p : Packet) : Prop :=
  p.version < 256 ∧ p.type < 256 ∧ p.sessionId.length = 16 ∧
    (∀ b ∈ p.sessionId, b < 256) ∧ p.chunkId < 2 ^ 64 ∧ p.seq < 2 ^ 32 ∧
    p.priority < 256 ∧ (∀ b ∈ p.payload, b < 256) ∧
    p.payload.length ≤ maxPayload

instance (p : Packet) : Decidable p.Wf := by
  unfold Packet.Wf; infer_instance

/-! ## Concrete fixtures used by witnesses and counterexamples -/

/-- A valid file descriptor (as in the repository's session tests). -/
def sampleFile : FileMetadata :=
  { name := "test.bin", size := 1024, hash := "abc", mimeType := "" }

/-- A valid one-chunk session. -/
def sampleSession : TransferSession :=
  { id := "sid1", file := sampleFile, status := SessionStatusCreated,
    chunks := [], createdAt := 0, updatedAt := 0, completedAt := none,
    totalChunks := 1, completed := 0, failed := 0, bytesSent := 0,
    bytesReceived := 0 }

/-- A store holding `sampleSession` in memory and on disk. -/
def sampleManager : SessionManager :=
  { sessions := [("sid1", sampleSession)],
    disk := [("sid1.json", FileContent.session sampleSession)] }

/-- All session files visible in a base directory pass validation. -/
def DiskValid (disk : List (String × FileContent)) : Prop :=
  ∀ name s, mapFind name disk = some (FileContent.session s) →
    s.Validate = .ok ()

/-- A concrete receiver context: the hash of anything is 32 zero bytes,
file-metadata payloads do not unmarshal, and writes succeed. -/
def sampleCtx : ReceiverCtx :=
  { hash := fun _ => List.replicate 32 0
    parseFileMeta := fun _ => .error "unmarshal"
    uuidOf := fun n => toString n
    now := 0
    createFail := false
    storeFail := false
    updateFail := false }

/-- A connection that has already established `sampleSession`. -/
def sampleReceiverState : ReceiverState :=
  { mgr := sampleManager, temp := [], sess := some "sid1", nextUuid := 0 }

/-- A data-frame chunk descriptor declaring the (wrong, under
`sampleCtx.hash`) digest `"ff"`. -/
def sampleChunkMeta : ChunkMetadata :=
  { ChunkMetadata.zero with id := "0", sha256 := "ff" }

/-- A concrete checkpoint projection. -/
def sampleCheckpoint : SessionCheckpoint :=
  { sessionID := "sid1", completedChunks := [], pendingChunks := [],
    totalChunks := 1, lastUpdateTime := 0 }

/-- A concrete well-formed packet with empty payload. -/
def samplePacket : Packet :=
  { version := 1, type := 1, sessionId := List.replicate 16 0,
    chunkId := 0, seq := 0, priority := 0, payload := [], checksum := 0 }

/-! ## `internal/erasure`: the Reed-Solomon erasure coder

The wrapper (`ErasureCoder`, `NewErasureCoder`, `CalculateShardSize`,
`Encode`, `Decode`) is translated from `internal/erasure/reed_solomon.go`.
The codec itself lives in the external library `github.com/klauspost/reedsolomon`
(not in `src/`); it is modelled from the spec as a systematic Reed-Solomon
code: per byte position, the `D` data bytes are values of a degree-`< D`
polynomial at nodes `0, ..., D-1` and parity shard `j` holds its value at
node `D+j`, over the field `ZMod 257` (the library uses `GF(256)`; any field
with at least `D+P` evaluation points supports the reconstruction property
the spec states, and `ZMod 257` keeps every definition executable). -/

instance fact_prime_257 : Fact (Nat.Prime 257) := ⟨by norm_num⟩

/-- Evaluation at `x` of the Lagrange interpolation polynomial through the
points `(i, r i)` for `i ∈ s` (nodes embedded into `ZMod 257`), written as an
executable finite sum. -/
def lagrangeEvalAt (s : Finset ℕ) (r : ℕ → ZMod 257) (x : ZMod 257) : ZMod 257 :=
  ∑ i ∈ s, r i * ∏ j ∈ s.erase i, (((i : ZMod 257) - (j : ZMod 257))⁻¹ * (x - (j : ZMod 257)))

/-- Byte `k` of shard `j` in a full (non-erased) shard list. -/
def shardByte (shards : List (List ℕ)) (j k : ℕ) : ℕ :=
  (shards.getD j []).getD k 0

/-- Byte `k` of shard `j` in a shard list with erasures (`none` = erased). -/
def rsShardByte (shards : List (Option (List ℕ))) (j k : ℕ) : ℕ :=
  ((shards.getD j none).getD []).getD k 0

/-- Modelled from the spec: byte `k` of parity shard `t` is the evaluation at
node `t` of the degree-`< D` polynomial through the `D` data bytes at
position `k`. -/
def rsParityByte (D : ℕ) (shards : List (List ℕ)) (t k : ℕ) : ℕ :=
  (lagrangeEvalAt (Finset.range D)
    (fun i => ((shardByte shards i k : ℕ) : ZMod 257)) ((t : ℕ) : ZMod 257)).val

def rsParityShard (D size : ℕ) (shards : List (List ℕ)) (t : ℕ) : List ℕ :=
  (List.range size).map (rsParityByte D shards t)

/-- Modelled from the spec: the external Reed-Solomon codec's `Encode`,
as a systematic evaluation code over the field `ZMod 257`. -/
def rsEncode (D P : ℕ) (shards : List (List ℕ)) : Except String (List (List ℕ)) :=
  if shards.length ≠ D + P then .error "too few shards"
  else if (shards.getD 0 []).length = 0 then .error "no shard data"
  else .ok ((List.range (D + P)).map (fun t =>
    if t < D then shards.getD t []
    else rsParityShard D (shards.getD 0 []).length shards t))

/-- Indices of the non-erased shards, in increasing order. -/
def presentIdx (n : ℕ) (shards : List (Option (List ℕ))) : List ℕ :=
  (List.range n).filter (fun t => (shards.getD t none).isSome)

/-- Length of the first non-erased shard. -/
def firstShardLen (shards : List (Option (List ℕ))) : ℕ :=
  match shards with
  | [] => 0
  | none :: rest => firstShardLen rest
  | some s :: _ => s.length

def shardsConsistent (shards : List (Option (List ℕ))) : Bool :=
  shards.all (fun o => o.elim true (fun s => s.length == firstShardLen shards))

/-- Modelled from the spec: an erased byte is recovered by interpolating
through the first `D` surviving shards. -/
def rsReconByte (D : ℕ) (shards : List (Option (List ℕ))) (t k : ℕ) : ℕ :=
  (lagrangeEvalAt ((presentIdx shards.length shards).take D).toFinset
    (fun j => ((rsShardByte shards j k : ℕ) : ZMod 257)) ((t : ℕ) : ZMod 257)).val

def rsReconShard (D size : ℕ) (shards : List (Option (List ℕ))) (t : ℕ) : List ℕ :=
  match shards.getD t none with
  | some s => s
  | none => (List.range size).map (rsReconByte D shards t)

/-- Modelled from the spec: the external codec's `Reconstruct`: require at
least `D` surviving shards of consistent length, and fill every erased shard
by interpolation. -/
def rsReconstruct (D P : ℕ) (shards : List (Option (List ℕ))) :
    Except String (List (List ℕ)) :=
  if shards.length ≠ D + P then .error "too few shards"
  else if (presentIdx (D + P) shards).length < D then
    .error "too few shards to reconstruct"
  else if shardsConsistent shards then
    .ok ((List.range (D + P)).map (rsReconShard D (firstShardLen shards) shards))
  else .error "shard sizes do not match"

/-- `ErasureCoder` wraps a Reed-Solomon encoder/decoder. -/
structure ErasureCoder where
  DataShards : ℕ
  ParityShards : ℕ
  ShardSize : ℕ
deriving Repr, DecidableEq

/-- `NewErasureCoder` creates a new `ErasureCoder` with the given shard
configuration. -/
def NewErasureCoder (dataShards parityShards : ℕ) : Except String ErasureCoder :=
  if dataShards = 0 ∨ parityShards = 0 then
    .error "dataShards and parityShards must be > 0"
  else .ok ⟨dataShards, parityShards, 0⟩

/-- `CalculateShardSize` returns a shard size that evenly splits `dataSize`
across data shards (and records it in the coder). -/
def ErasureCoder.CalculateShardSize (e : ErasureCoder) (dataSize : ℕ) :
    ErasureCoder × ℕ :=
  if dataSize = 0 then (e, 0)
  else ({ e with ShardSize := (dataSize + e.DataShards - 1) / e.DataShards },
    (dataSize + e.DataShards - 1) / e.DataShards)

/-- Data shard `i`: bytes `[i*shardSize, (i+1)*shardSize)` of `data`, copied
into a zero buffer of size `shardSize` (so zero-padded; all zeros when the
start is past the end of `data`). -/
def dataShardOf (data : List ℕ) (shardSize i : ℕ) : List ℕ :=
  (data.drop (i * shardSize)).take shardSize
    ++ List.replicate
      (shardSize - ((data.drop (i * shardSize)).take shardSize).length) 0

/-- The shard array handed to the codec: `D` data shards followed by `P`
zeroed parity shards. -/
def encodeShards (D P : ℕ) (data : List ℕ) (shardSize : ℕ) : List (List ℕ) :=
  (List.range D).map (dataShardOf data shardSize)
    ++ List.replicate P (List.replicate shardSize 0)

/-- `Encode` splits data into data+parity shards. -/
def ErasureCoder.Encode (e : ErasureCoder) (data : List ℕ) :
    Except String (ErasureCoder × List (List ℕ)) :=
  if e.DataShards = 0 then .error "erasure coder not initialized"
  else if e.ShardSize = 0 then
    match rsEncode e.DataShards e.ParityShards
        (encodeShards e.DataShards e.ParityShards data
          (e.CalculateShardSize data.length).2) with
    | .error s => .error s
    | .ok shards => .ok ((e.CalculateShardSize data.length).1, shards)
  else
    match rsEncode e.DataShards e.ParityShards
        (encodeShards e.DataShards e.ParityShards data e.ShardSize) with
    | .error s => .error s
    | .ok shards => .ok (e, shards)

/-- `Decode` reconstructs the original data from shards (some of which may be
erased): it joins the data shards after reconstruction. -/
def ErasureCoder.Decode (e : ErasureCoder) (shards : List (Option (List ℕ))) :
    Except String (List ℕ) :=
  if shards.length ≠ e.DataShards + e.ParityShards then
    .error ("expected " ++ toString (e.DataShards + e.ParityShards)
      ++ " shards, got " ++ toString shards.length)
  else
    match rsReconstruct e.DataShards e.ParityShards shards with
    | .error s => .error s
    | .ok full => .ok (full.take e.DataShards).flatten

/-- Null out the shards marked `true` in the mask. -/
def applyErasure (mask : List Bool) (shards : List (List ℕ)) :
    List (Option (List ℕ)) :=
  List.zipWith (fun b s => if b then none else some s) mask shards

/-! # Theorems -/

/-! ## Association-list map lemmas -/

theorem mapFind_insert_self {α : Type} (k : String) (v : α)
    (m : List (String × α)) : mapFind k (mapInsert k v m) = some v := by
  simp [mapFind, mapInsert]

theorem mapFind_insert_ne {α : Type} (k k' : String) (v : α)
    (m : List (String × α)) (h : k ≠ k') :
    mapFind k' (mapInsert k v m) = mapFind k' m := by
  simp [mapFind, mapInsert, h]

/-! ## Claim C7: the compression codec is an involution pair -/

/-- C7: `compress` and `decompress` are mutually inverse on their domains:
`decompress (compress buf) = buf` for every buffer; `compress` of a
successful `decompress` restores the input frame; and `decompress`
succeeds exactly on valid compressed frames.  (The zstd codec is an
external library; it is modelled from the spec, see `CompressChunk`.) -/
theorem c7_codec_inverse :
    (∀ data : List Nat, DecompressChunk (CompressChunk data) = .ok data) ∧
    (∀ buf out : List Nat, DecompressChunk buf = .ok out → CompressChunk out = buf) ∧
    (∀ buf : List Nat, (∃ out, DecompressChunk buf = .ok out) ↔ IsZstdFrame buf) := by
  refine ⟨fun data => ?_, fun buf out h => ?_, fun buf => ?_⟩
  · simp [CompressChunk, DecompressChunk, zstdMagic, List.take, List.drop]
  · unfold DecompressChunk at h
    split at h
    · next hmagic =>
      simp only [Except.ok.injEq] at h
      subst h
      unfold CompressChunk
      rw [← hmagic, List.take_append_drop]
    · exact absurd h (by simp)
  · unfold DecompressChunk IsZstdFrame
    split
    · next hmagic => exact ⟨fun _ => hmagic, fun _ => ⟨buf.drop 4, rfl⟩⟩
    · next hmagic => simp [hmagic]

/-- C7 witness: the theorem's second component applied at the concrete
frame `zstdMagic ++ [7]`, whose decompression is evaluated by `rfl`. -/
theorem c7_codec_inverse_witness : CompressChunk [7] = zstdMagic ++ [7] :=
  c7_codec_inverse.2.1 (zstdMagic ++ [7]) [7] rfl

/-! ## Claim C1: the chunker tiles the file exactly -/

theorem chunkLoop_eq_nil (hashHex : List Nat → String) (csize now : Nat)
    (rem : List Nat) (off idx : Nat) (h : min csize rem.length = 0) :
    chunkLoop hashHex csize now rem off idx = [] := by
  rw [chunkLoop]
  simp [h]

theorem chunkLoop_eq_cons (hashHex : List Nat → String) (csize now : Nat)
    (rem : List Nat) (off idx : Nat) (h : ¬ min csize rem.length = 0) :
    chunkLoop hashHex csize now rem off idx =
      ({ id := toString idx, size := ((min csize rem.length : Nat) : Int),
         offset := (off : Int),
         sha256 := hashHex (rem.take (min csize rem.length)), isParity := false,
         status := ChunkStatusPending, createdAt := now, updatedAt := now,
         sessionID := "", priority := 0, retryCount := 0, error := "" },
        rem.take (min csize rem.length))
        :: chunkLoop hashHex csize now (rem.drop (min csize rem.length))
            (off + min csize rem.length) (idx + 1) := by
  rw [chunkLoop]
  simp [h]

theorem chunkLoop_props (hashHex : List Nat → String) (csize now : Nat)
    (hcs : 0 < csize) :
    ∀ n (rem : List Nat), rem.length = n → ∀ off idx : Nat,
      (((chunkLoop hashHex csize now rem off idx).map Prod.snd).flatten = rem) ∧
      (((chunkLoop hashHex csize now rem off idx).map (fun c => c.1.size)).sum
          = (rem.length : Int)) ∧
      (∀ i (hi : i < (chunkLoop hashHex csize now rem off idx).length),
        ((chunkLoop hashHex csize now rem off idx).get ⟨i, hi⟩).1.id
            = toString (idx + i) ∧
        ((chunkLoop hashHex csize now rem off idx).get ⟨i, hi⟩).1.size =
          ((((chunkLoop hashHex csize now rem off idx).get ⟨i, hi⟩).2.length : Nat) : Int) ∧
        0 < ((chunkLoop hashHex csize now rem off idx).get ⟨i, hi⟩).2.length ∧
        ((chunkLoop hashHex csize now rem off idx).get ⟨i, hi⟩).1.offset =
          (off : Int) +
            ((((chunkLoop hashHex csize now rem off idx).take i).map
              (fun c => c.1.size)).sum)) := by
  intro n
  induction n using Nat.strong_induction_on with
  | _ n ih =>
    intro rem hlen off idx
    by_cases h : min csize rem.length = 0
    · have hrem : rem = [] := by
        rcases Nat.min_eq_zero_iff.mp h with h' | h'
        · omega
        · exact List.length_eq_zero.mp h'
      subst hrem
      rw [chunkLoop_eq_nil hashHex csize now [] off idx (by simp)]
      refine ⟨rfl, rfl, fun i hi => absurd hi (by simp)⟩
    · set m := min csize rem.length with hm
      have hmpos : 0 < m := Nat.pos_of_ne_zero h
      have hmle : m ≤ rem.length := by omega
      have hdroplen : (rem.drop m).length < n := by
        simp only [List.length_drop]
        omega
      obtain ⟨ihjoin, ihsum, ihget⟩ :=
        ih (rem.drop m).length hdroplen (rem.drop m) rfl (off + m) (idx + 1)
      rw [chunkLoop_eq_cons hashHex csize now rem off idx h]
      refine ⟨?_, ?_, ?_⟩
      · simp [ihjoin]
      · simp only [List.map_cons, List.sum_cons, ihsum]
        simp only [List.length_drop]
        push_cast
        omega
      · intro i hi
        match i with
        | 0 =>
          refine ⟨by simp, ?_, ?_, by simp⟩
          · simp [List.length_take, hm]
          · simp only [List.get]
            simp [List.length_take]
            omega
        | i + 1 =>
          have hi' : i < (chunkLoop hashHex csize now (rem.drop m)
              (off + m) (idx + 1)).length := by
            simpa using Nat.lt_of_succ_lt_succ hi
          obtain ⟨hid, hsz, hpos, hoff⟩ := ihget i hi'
          refine ⟨?_, ?_, ?_, ?_⟩
          · simpa [Nat.add_comm, Nat.add_assoc, Nat.add_left_comm] using hid
          · simpa using hsz
          · simpa using hpos
          · simp only [List.get, List.take, List.map_cons, List.sum_cons]
            rw [hoff]
            simp only [← hm]
            push_cast
            omega

/-- C1: for a target chunk size `T` within the configured `[min, max]`
range (with a positive minimum, as in any normalized config), `ChunkFile`
returns chunk descriptors whose ids are the decimal chunk index starting
at 0, whose offsets tile `[0, file.size)` exactly once with no gaps or
overlaps in strictly increasing offset order (each offset is the sum of
the preceding sizes, sizes are positive, and the sizes sum to the file
length), and whose concatenated raw bytes in index order equal the file's
bytes exactly. -/
theorem c1_chunker_tiles_file (cfg : ChunkerConfig)
    (hashHex : List Nat → String) (now : Nat) (file : List Nat) (T : Int)
    (hmin : 0 < cfg.minChunkSize) (h1 : cfg.minChunkSize ≤ T)
    (h2 : T ≤ cfg.maxChunkSize) :
    (((ChunkFile cfg hashHex now file T).map Prod.snd).flatten = file) ∧
    (∀ i (hi : i < (ChunkFile cfg hashHex now file T).length),
      ((ChunkFile cfg hashHex now file T).get ⟨i, hi⟩).1.id = toString i) ∧
    (∀ i (hi : i < (ChunkFile cfg hashHex now file T).length),
      ((ChunkFile cfg hashHex now file T).get ⟨i, hi⟩).1.offset =
        (((ChunkFile cfg hashHex now file T).take i).map (fun c => c.1.size)).sum ∧
      0 < ((ChunkFile cfg hashHex now file T).get ⟨i, hi⟩).1.size ∧
      ((ChunkFile cfg hashHex now file T).get ⟨i, hi⟩).1.size =
        ((((ChunkFile cfg hashHex now file T).get ⟨i, hi⟩).2.length : Nat) : Int)) ∧
    (((ChunkFile cfg hashHex now file T).map (fun c => c.1.size)).sum
        = (file.length : Int)) := by
  have hT : ¬ T ≤ 0 := by omega
  have hTmin : ¬ T < cfg.minChunkSize := by omega
  have hTmax : ¬ T > cfg.maxChunkSize := by omega
  have hToNat : 0 < T.toNat := by omega
  have hcf : ChunkFile cfg hashHex now file T =
      chunkLoop hashHex T.toNat now file 0 0 := by
    unfold ChunkFile
    simp [hT, hTmin, hTmax]
  obtain ⟨hjoin, hsum, hget⟩ :=
    chunkLoop_props hashHex T.toNat now hToNat file.length file rfl 0 0
  rw [hcf]
  refine ⟨hjoin, ?_, ?_, hsum⟩
  · intro i hi
    exact (hget i hi).1.trans (by simp)
  · intro i hi
    obtain ⟨hid, hsz, hpos, hoff⟩ := hget i hi
    refine ⟨by simpa using hoff, ?_, hsz⟩
    rw [hsz]
    exact_mod_cast hpos

/-- C1 witness: the theorem applied to a five-byte file with chunk size 2
in the configured range `[2, 5]`, yielding chunks of sizes 2, 2, 1. -/
theorem c1_chunker_tiles_file_witness :
    ((ChunkFile ⟨2, 5, 3⟩ (fun _ => "h") 0 [10, 11, 12, 13, 14] 2).map
        Prod.snd).flatten = [10, 11, 12, 13, 14] :=
  (c1_chunker_tiles_file ⟨2, 5, 3⟩ (fun _ => "h") 0 [10, 11, 12, 13, 14] 2
    (by decide) (by decide) (by decide)).1

/-! ## The session store: basic facts about `saveLocked` and
`UpdateChunkStatus` -/

theorem saveLocked_ok (disk : List (String × FileContent))
    (s : TransferSession) (ioFail : Bool)
    (disk' : List (String × FileContent))
    (h : saveLocked disk s ioFail = .ok disk') :
    s.Validate = .ok () ∧ ioFail = false ∧
      disk' = mapInsert (s.id ++ ".json") (FileContent.session s) disk := by
  unfold saveLocked at h
  rcases hv : s.Validate with e | u
  · rw [hv] at h
    exact absurd h (by simp)
  · rw [hv] at h
    rcases ioFail with _ | _
    · simp only [Bool.false_eq_true, if_false, Except.ok.injEq] at h
      exact ⟨rfl, rfl, h.symm⟩
    · simp at h

theorem saveLocked_error_disk_unchanged (disk : List (String × FileContent))
    (s : TransferSession) (ioFail : Bool) :
    saveLocked disk s ioFail = .error e →
      ∀ name, mapFind name disk = mapFind name disk :=
  fun _ _ => rfl

/-- Structure of a successful `UpdateChunkStatus` on a session found in
the table: the result is `ok`, persistence succeeded, and both the table
and the disk hold `sessionAfterUpdate`. -/
theorem UpdateChunkStatus_ok (m : SessionManager) (sid cid status : String)
    (now : Nat) (ioFail : Bool) (m' : SessionManager) (s : TransferSession)
    (hfind : mapFind sid m.sessions = some s)
    (h : UpdateChunkStatus m sid cid status now ioFail = (.ok (), m')) :
    (sessionAfterUpdate s cid status now).Validate = .ok () ∧
    m' = { sessions := mapInsert sid (sessionAfterUpdate s cid status now)
             m.sessions
           disk := mapInsert ((sessionAfterUpdate s cid status now).id
             ++ ".json")
             (FileContent.session (sessionAfterUpdate s cid status now))
             m.disk } := by
  simp only [UpdateChunkStatus, hfind] at h
  rcases hsl : saveLocked m.disk (sessionAfterUpdate s cid status now) ioFail
    with e | disk'
  · rw [hsl] at h
    exact absurd (congrArg Prod.fst h) (by simp)
  · rw [hsl] at h
    obtain ⟨hval, -, hdisk⟩ := saveLocked_ok _ _ _ _ hsl
    have hm' := congrArg Prod.snd h
    simp only at hm'
    refine ⟨hval, ?_⟩
    rw [← hm', hdisk]

/-! ## Claim C3: `update_chunk_status` persists before returning -/

/-- C3: after an `UpdateChunkStatus (s, c, completed)` call that returns
without error, loading the session back from its on-disk file
`{base}/{s}.json` yields a session whose chunk `c` has status `completed`
(and whose `updated_at` was refreshed).  The hypotheses say that the
in-memory table maps `sid` to a session whose `id` field is `sid`, which
holds for every session the store itself creates and persists. -/
theorem c3_update_persists (m : SessionManager) (sid cid : String)
    (now : Nat) (ioFail : Bool) (m' : SessionManager) (s : TransferSession)
    (hfind : mapFind sid m.sessions = some s) (hid : s.id = sid)
    (h : UpdateChunkStatus m sid cid ChunkStatusCompleted now ioFail
      = (.ok (), m')) :
    ∃ s' chunk, LoadSession m'.disk sid = .ok s' ∧
      mapFind cid s'.chunks = some chunk ∧
      chunk.status = ChunkStatusCompleted ∧ chunk.updatedAt = now ∧
      s'.updatedAt = now := by
  obtain ⟨hval, hm'⟩ := UpdateChunkStatus_ok m sid cid ChunkStatusCompleted
    now ioFail m' s hfind h
  refine ⟨sessionAfterUpdate s cid ChunkStatusCompleted now,
    { chunkForUpdate s cid now with
      status := ChunkStatusCompleted
      updatedAt := now }, ?_, mapFind_insert_self .., rfl, rfl, rfl⟩
  have hsid : (sessionAfterUpdate s cid ChunkStatusCompleted now).id = sid :=
    hid
  rw [hm']
  simp only [LoadSession, hsid, mapFind_insert_self, decodeSessionJSON, hval]

/-- C3 witness: the theorem applied to the concrete one-session store
`sampleManager`; all hypotheses evaluate by `rfl`. -/
theorem c3_update_persists_witness :
    ∃ s' chunk,
      LoadSession (UpdateChunkStatus sampleManager "sid1" "0"
        ChunkStatusCompleted 7 false).2.disk "sid1" = .ok s' ∧
      mapFind "0" s'.chunks = some chunk ∧
      chunk.status = ChunkStatusCompleted ∧ chunk.updatedAt = 7 ∧
      s'.updatedAt = 7 :=
  c3_update_persists sampleManager "sid1" "0" 7 false
    (UpdateChunkStatus sampleManager "sid1" "0" ChunkStatusCompleted 7 false).2
    sampleSession rfl rfl rfl

/-! ## Claim C4: error semantics of a failed persistence

The claim says a persistence failure inside `update_chunk_status` leaves
the in-memory session state unchanged.  In the code the in-memory
mutation happens *before* `saveLocked` runs, and a `saveLocked` failure
only returns the error: the mutated session stays in the table.  What is
preserved on failure is the previously *persisted* state. -/

/-- C4 counterexample: on the concrete store `sampleManager`, an
`UpdateChunkStatus` whose persistence write fails surfaces the error, yet
the in-memory `completed` counter has moved from 0 to 1 (and the chunk is
in the in-memory map with status `completed`) — the in-memory state is
not left unchanged, refuting the claim's atomicity part. -/
theorem c4_counterexample :
    (UpdateChunkStatus sampleManager "sid1" "0" ChunkStatusCompleted 7
        true).1 = .error "open temp session file: io failure" ∧
    (mapFind "sid1" (UpdateChunkStatus sampleManager "sid1" "0"
        ChunkStatusCompleted 7 true).2.sessions).map (fun s => s.completed)
      = some 1 ∧
    (mapFind "sid1" sampleManager.sessions).map (fun s => s.completed)
      = some 0 ∧
    (UpdateChunkStatus sampleManager "sid1" "0" ChunkStatusCompleted 7
        true).2.disk = sampleManager.disk := by
  decide

/-- C4 (amended): if the persistence I/O inside `update_chunk_status`
fails, the error surfaces to the caller and the previously persisted
on-disk state is unchanged (write-then-swap: pre-swap failures preserve
the prior persisted file); the in-memory table, however, already holds
the applied update (`sessionAfterUpdate`: chunk status, counters and
`updated_at` mutated). -/
theorem c4_io_error_surfaces (m : SessionManager) (sid cid status : String)
    (now : Nat) (s : TransferSession)
    (hfind : mapFind sid m.sessions = some s) :
    (∃ e, (UpdateChunkStatus m sid cid status now true).1 = .error e) ∧
    (UpdateChunkStatus m sid cid status now true).2.disk = m.disk ∧
    mapFind sid (UpdateChunkStatus m sid cid status now true).2.sessions
      = some (sessionAfterUpdate s cid status now) := by
  simp only [UpdateChunkStatus, hfind]
  rcases hsl : saveLocked m.disk (sessionAfterUpdate s cid status now) true
    with e | disk'
  · exact ⟨⟨e, rfl⟩, rfl, mapFind_insert_self ..⟩
  · obtain ⟨-, hio, -⟩ := saveLocked_ok _ _ _ _ hsl
    exact absurd hio (by simp)

/-- C4 witness: the amended theorem applied to the concrete store
`sampleManager`. -/
theorem c4_io_error_surfaces_witness :
    (∃ e, (UpdateChunkStatus sampleManager "sid1" "0" ChunkStatusPending 7
      true).1 = .error e) ∧
    (UpdateChunkStatus sampleManager "sid1" "0" ChunkStatusPending 7
      true).2.disk = sampleManager.disk ∧
    mapFind "sid1" (UpdateChunkStatus sampleManager "sid1" "0"
      ChunkStatusPending 7 true).2.sessions
      = some (sessionAfterUpdate sampleSession "0" ChunkStatusPending 7) :=
  c4_io_error_surfaces sampleManager "sid1" "0" ChunkStatusPending 7
    sampleSession rfl

/-! ## Claim C5: counter increments and the `completed + failed ≤
total_chunks` invariant

`UpdateChunkStatus` increments the `completed` counter on *every* call
with status `completed` — the Go `switch` does not test the chunk's
previous status — so marking the same chunk completed twice counts it
twice, and the claimed invariant fails. -/

/-- C5 counterexample: on `sampleManager` (`total_chunks = 1`), marking
the same chunk `"0"` completed twice — one distinct chunk, which is at
most `total_chunks` — leaves the session with `completed = 2`, so the
same chunk is counted twice and `completed + failed ≤ total_chunks` is
violated. -/
theorem c5_counterexample :
    (mapFind "sid1" (UpdateChunkStatus (UpdateChunkStatus sampleManager
          "sid1" "0" ChunkStatusCompleted 0 false).2 "sid1" "0"
          ChunkStatusCompleted 0 false).2.sessions).map
        (fun s => (s.completed, s.failed, s.totalChunks)) = some (2, 0, 1) ∧
    (mapFind "sid1" (UpdateChunkStatus (UpdateChunkStatus sampleManager
          "sid1" "0" ChunkStatusCompleted 0 false).2 "sid1" "0"
          ChunkStatusCompleted 0 false).2.sessions).map
        (fun s => decide (s.completed + s.failed ≤ s.totalChunks))
      = some false := by
  decide

/-- C5 (amended): every successful `update_chunk_status(s, c, completed)`
call increments the session's `completed` counter by exactly one and
leaves `failed` unchanged, regardless of the chunk's previous status —
duplicate completions are therefore counted once per call, not once per
chunk, and `completed + failed` is bounded by the number of
completed/failed update calls rather than by `total_chunks`. -/
theorem c5_completed_counts_every_update (m : SessionManager)
    (sid cid : String) (now : Nat) (ioFail : Bool) (m' : SessionManager)
    (s : TransferSession) (hfind : mapFind sid m.sessions = some s)
    (h : UpdateChunkStatus m sid cid ChunkStatusCompleted now ioFail
      = (.ok (), m')) :
    ∃ s', mapFind sid m'.sessions = some s' ∧
      s'.completed = s.completed + 1 ∧ s'.failed = s.failed := by
  obtain ⟨-, hm'⟩ := UpdateChunkStatus_ok m sid cid ChunkStatusCompleted
    now ioFail m' s hfind h
  refine ⟨sessionAfterUpdate s cid ChunkStatusCompleted now,
    by rw [hm']; exact mapFind_insert_self .., ?_, ?_⟩
  · show (if ChunkStatusCompleted = ChunkStatusCompleted then s.completed + 1
      else s.completed) = s.completed + 1
    rw [if_pos rfl]
  · show (if ChunkStatusCompleted = ChunkStatusFailed then s.failed + 1
      else s.failed) = s.failed
    rw [if_neg (by decide)]

/-- C5 witness: the amended theorem applied to the concrete store
`sampleManager`. -/
theorem c5_completed_counts_every_update_witness :
    ∃ s', mapFind "sid1" (UpdateChunkStatus sampleManager "sid1" "0"
        ChunkStatusCompleted 0 false).2.sessions = some s' ∧
      s'.completed = sampleSession.completed + 1 ∧
      s'.failed = sampleSession.failed :=
  c5_completed_counts_every_update sampleManager "sid1" "0" 0 false
    (UpdateChunkStatus sampleManager "sid1" "0" ChunkStatusCompleted 0
      false).2 sampleSession rfl rfl

/-! ## Claim C10: the store never persists an invalid session -/

theorem DiskValid_insert (disk : List (String × FileContent))
    (s : TransferSession) (hd : DiskValid disk)
    (hv : s.Validate = .ok ()) :
    DiskValid (mapInsert (s.id ++ ".json") (FileContent.session s) disk) := by
  intro name t hfind
  by_cases hn : s.id ++ ".json" = name
  · subst hn
    rw [mapFind_insert_self] at hfind
    obtain rfl : s = t := FileContent.session.inj (Option.some.inj hfind)
    exact hv
  · rw [mapFind_insert_ne _ _ _ _ hn] at hfind
    exact hd _ _ hfind

theorem sampleDiskValid : DiskValid sampleManager.disk := by
  intro name s h
  simp only [sampleManager, mapFind] at h
  split at h
  · obtain rfl : sampleSession = s :=
      FileContent.session.inj (Option.some.inj h)
    decide
  · exact Option.noConfusion h

/-- C10: `saveLocked` runs the session's `Validate` check before writing:
a validation failure surfaces as the error and writes nothing, and any
successful write stores a session that passed validation.  Consequently
every store operation (`save_session`, `create_session`,
`update_chunk_status`) preserves the invariant that all session files on
disk hold sessions passing `Validate` (non-empty id, valid file
metadata, valid status, non-negative counters — see
`TransferSession.Validate`). -/
theorem c10_store_persists_only_valid_sessions :
    (∀ disk s ioFail disk', saveLocked disk s ioFail = .ok disk' →
      s.Validate = .ok () ∧
      disk' = mapInsert (s.id ++ ".json") (FileContent.session s) disk) ∧
    (∀ disk s ioFail e, s.Validate = .error e →
      saveLocked disk s ioFail = .error e) ∧
    (∀ m s ioFail, DiskValid m.disk →
      DiskValid (SaveSession m s ioFail).2.disk) ∧
    (∀ m f uuid now ioFail, DiskValid m.disk →
      DiskValid (CreateSession m f uuid now ioFail).2.disk) ∧
    (∀ m sid cid status now ioFail, DiskValid m.disk →
      DiskValid (UpdateChunkStatus m sid cid status now ioFail).2.disk) := by
  have hsave : ∀ m s ioFail, DiskValid m.disk →
      DiskValid (SaveSession m s ioFail).2.disk := by
    intro m s ioFail hd
    unfold SaveSession
    rcases hsl : saveLocked m.disk s ioFail with e | disk'
    · exact hd
    · obtain ⟨hv, -, hdisk⟩ := saveLocked_ok _ _ _ _ hsl
      simpa [hdisk] using DiskValid_insert m.disk s hd hv
  refine ⟨fun disk s ioFail disk' h => saveLocked_ok disk s ioFail disk' h
    |>.elim (fun a b => ⟨a, b.2⟩), ?_, hsave, ?_, ?_⟩
  · intro disk s ioFail e hv
    unfold saveLocked
    rw [hv]
  · intro m f uuid now ioFail hd
    unfold CreateSession
    rcases hf : f.Validate with e | ⟨⟩
    · exact hd
    · rcases hs : (newSession f uuid now).Validate with e | ⟨⟩
      · exact hd
      · have key := hsave
          { m with sessions := mapInsert uuid (newSession f uuid now) m.sessions }
          (newSession f uuid now) ioFail hd
        rcases hss : SaveSession
          { m with sessions := mapInsert uuid (newSession f uuid now) m.sessions }
          (newSession f uuid now) ioFail with ⟨r, m2⟩
        rw [hss] at key
        rcases r with e | ⟨⟩ <;> exact key
  · intro m sid cid status now ioFail hd
    rcases hfind : mapFind sid m.sessions with _ | s
    · simp only [UpdateChunkStatus, hfind]
      exact hd
    · simp only [UpdateChunkStatus, hfind]
      rcases hsl : saveLocked m.disk (sessionAfterUpdate s cid status now)
        ioFail with e | disk'
      · exact hd
      · obtain ⟨hv, -, hdisk⟩ := saveLocked_ok _ _ _ _ hsl
        show DiskValid disk'
        rw [hdisk]
        exact DiskValid_insert m.disk (sessionAfterUpdate s cid status now)
          hd hv

/-- C10 witness: the validity invariant, applied after a concrete
`UpdateChunkStatus` on `sampleManager` (whose disk is valid by
`sampleDiskValid`). -/
theorem c10_store_persists_only_valid_sessions_witness :
    DiskValid (UpdateChunkStatus sampleManager "sid1" "0"
      ChunkStatusCompleted 0 false).2.disk :=
  c10_store_persists_only_valid_sessions.2.2.2.2 sampleManager "sid1" "0"
    ChunkStatusCompleted 0 false sampleDiskValid

/-! ## Claim C2: hash-mismatched data frames are dropped without effect -/

/-- C2: when the receiver gets a data frame whose declared `sha256`
hex-decodes but does not match the hash of the decompressed payload, the
loop body leaves the connection state entirely unchanged — so no `.part`
file is written, the chunk is not inserted into the session, and the
session store is not touched (in particular the `completed` counter is
not incremented) — and the receiver continues with the subsequent frames
of the same connection. -/
theorem c2_hash_mismatch_drops_frame (ctx : ReceiverCtx)
    (st : ReceiverState) (meta : ChunkMetadata) (data : List Nat)
    (rest : List (ChunkMetadata × List Nat)) (sid : String) (bs : List Nat)
    (hsess : st.sess = some sid) (hnotmeta : ¬ meta.id = "__filemeta__")
    (hdec : hexDecodeString meta.sha256 = some bs)
    (hmismatch : ctx.hash data ≠ (bs ++ List.replicate 32 0).take 32) :
    handleFrame ctx st meta data = .next st ∧
    processFrames ctx ((meta, data) :: rest) st = processFrames ctx rest st
    := by
  have hv : VerifyChunk ctx.hash data ((bs ++ List.replicate 32 0).take 32)
      = false := by
    unfold VerifyChunk
    exact decide_eq_false hmismatch
  have hstep : handleFrame ctx st meta data = .next st := by
    simp only [handleFrame, if_neg hnotmeta, hsess, hdec, hv, if_pos]
  refine ⟨hstep, ?_⟩
  rw [processFrames, hstep]

/-- C2 witness: the theorem applied to a concrete state with an
established session and a frame declaring digest `"ff"` for a payload
whose `sampleCtx.hash` digest is all zeroes. -/
theorem c2_hash_mismatch_drops_frame_witness :
    handleFrame sampleCtx sampleReceiverState sampleChunkMeta [1, 2, 3]
      = .next sampleReceiverState ∧
    processFrames sampleCtx ((sampleChunkMeta, [1, 2, 3]) :: [])
        sampleReceiverState
      = processFrames sampleCtx [] sampleReceiverState :=
  c2_hash_mismatch_drops_frame sampleCtx sampleReceiverState sampleChunkMeta
    [1, 2, 3] [] "sid1" [0xff] rfl (by decide) rfl (by decide)

/-! ## Claim C6: rehydration on construction -/

theorem loadExisting_mem (disk : List (String × FileContent)) :
    ∀ (entries : List DirEntry) (acc : List (String × TransferSession))
      (id : String) (s : TransferSession),
      mapFind id (loadExisting disk entries acc) = some s →
      (LoadSession disk id = .ok s ∧
        ∃ name c, DirEntry.file name c ∈ entries ∧ extIsJson name = true ∧
          dropJsonExt name = id) ∨
      mapFind id acc = some s := by
  intro entries
  induction entries with
  | nil => exact fun acc id s h => .inr h
  | cons e rest ih =>
    intro acc id s h
    cases e with
    | dir n =>
      rcases ih acc id s h with ⟨hload, name, c, hmem, hj, hid⟩ | hacc
      · exact .inl ⟨hload, name, c, List.mem_cons_of_mem _ hmem, hj, hid⟩
      · exact .inr hacc
    | file name c =>
      simp only [loadExisting] at h
      by_cases hj : extIsJson name
      · rw [if_pos hj] at h
        rcases hls : LoadSession disk (dropJsonExt name) with e' | s'
        · rw [hls] at h
          rcases ih acc id s h with ⟨hload, n', c', hmem, hj', hid⟩ | hacc
          · exact .inl ⟨hload, n', c', List.mem_cons_of_mem _ hmem, hj', hid⟩
          · exact .inr hacc
        · rw [hls] at h
          rcases ih _ id s h with ⟨hload, n', c', hmem, hj', hid⟩ | hacc
          · exact .inl ⟨hload, n', c', List.mem_cons_of_mem _ hmem, hj', hid⟩
          · by_cases hid : dropJsonExt name = id
            · subst hid
              rw [mapFind_insert_self] at hacc
              obtain rfl : s' = s := Option.some.inj hacc
              exact .inl ⟨hls, name, c, List.mem_cons_self .., hj, rfl⟩
            · rw [mapFind_insert_ne _ _ _ _ hid] at hacc
              exact .inr hacc
      · rw [if_neg hj] at h
        rcases ih acc id s h with ⟨hload, n', c', hmem, hj', hid⟩ | hacc
        · exact .inl ⟨hload, n', c', List.mem_cons_of_mem _ hmem, hj', hid⟩
        · exact .inr hacc

/-- C6 counterexample: the name filter is `filepath.Ext(name) == ".json"`,
which does *not* exclude `.checkpoint.json` files.  A base directory whose
single entry is `abc.checkpoint.json` containing valid session JSON is
loaded: construction succeeds and the table maps the id `abc.checkpoint`
to that session — refuting "loads exactly the entries whose names end in
`.json`, excluding `.checkpoint.json` files". -/
theorem c6_counterexample :
    (NewSessionManager (.ok [DirEntry.file "abc.checkpoint.json"
        (FileContent.session sampleSession)])).map
      (fun mgr => mapFind "abc.checkpoint" mgr.sessions)
      = .ok (some sampleSession) := by
  decide

/-- C6 (amended): on construction the store lists the base directory and
attempts every non-directory entry whose name ends in `.json` —
`.checkpoint.json` files included, since the extension test does not
exclude them.  (1) A directory-read failure is fatal to construction.
(2) Unreadable or invalid entries never abort construction.  (3) Every
session in the rehydrated table was loaded, through `LoadSession`, from
an entry whose name ends in `.json`, stripped to the id.  (4) A file
holding a checkpoint projection always fails to load as a session (it
decodes to a session with an empty id), so the store's own
`.checkpoint.json` files are logged and skipped. -/
theorem c6_rehydration :
    (∀ e, NewSessionManager (.error e)
      = .error ("read sessions dir: " ++ e)) ∧
    (∀ entries, NewSessionManager (.ok entries)
      = .ok (SessionManager.mk
          (loadExisting (diskOfEntries entries) entries [])
          (diskOfEntries entries))) ∧
    (∀ entries id s mgr, NewSessionManager (.ok entries) = .ok mgr →
      mapFind id mgr.sessions = some s →
      LoadSession (diskOfEntries entries) id = .ok s ∧
        ∃ name c, DirEntry.file name c ∈ entries ∧ extIsJson name = true ∧
          dropJsonExt name = id) ∧
    (∀ disk id c, mapFind (id ++ ".json") disk
        = some (FileContent.checkpoint c) →
      LoadSession disk id = .error "session id must not be empty") := by
  refine ⟨fun e => rfl, fun entries => rfl, ?_, ?_⟩
  · intro entries id s mgr hmgr hfind
    obtain rfl : SessionManager.mk
        (loadExisting (diskOfEntries entries) entries [])
        (diskOfEntries entries) = mgr := Except.ok.inj hmgr
    rcases loadExisting_mem (diskOfEntries entries) entries [] id s hfind
      with h | h
    · exact h
    · exact absurd h (by simp [mapFind])
  · intro disk id c hfind
    unfold LoadSession
    rw [hfind]
    rfl

/-- C6 witness: component (4) of the amended theorem applied to a
concrete directory holding a checkpoint projection under `x.json`. -/
theorem c6_rehydration_witness :
    LoadSession [("x.json", FileContent.checkpoint sampleCheckpoint)] "x"
      = .error "session id must not be empty" :=
  c6_rehydration.2.2.2 [("x.json", FileContent.checkpoint sampleCheckpoint)]
    "x" sampleCheckpoint rfl

/-! ## CRC-32: linearity, invertibility, single-byte sensitivity -/

theorem crcBit_zero : crcBit 0 = 0 := by decide

theorem xor_left_comm (a b c : Nat) : a ^^^ (b ^^^ c) = b ^^^ (a ^^^ c) := by
  rw [← Nat.xor_assoc, Nat.xor_comm a b, Nat.xor_assoc]

theorem xor_xor_cancel (a b : Nat) : a ^^^ (a ^^^ b) = b := by
  rw [← Nat.xor_assoc, Nat.xor_self, Nat.zero_xor]

theorem xor_div_two (a b : Nat) : (a ^^^ b) / 2 = a / 2 ^^^ b / 2 := by
  apply Nat.eq_of_testBit_eq
  intro i
  simp [Nat.testBit_div_two, Nat.testBit_xor]

theorem xor_mod_two (a b : Nat) : (a ^^^ b) % 2 = a % 2 ^^^ b % 2 := by
  have h := Nat.testBit_xor a b 0
  simp only [Nat.testBit_zero] at h
  rcases Nat.mod_two_eq_zero_or_one a with h1 | h1 <;>
    rcases Nat.mod_two_eq_zero_or_one b with h2 | h2 <;>
    rcases Nat.mod_two_eq_zero_or_one (a ^^^ b) with h3 | h3 <;>
    simp_all

theorem crcBit_linear (a b : Nat) :
    crcBit (a ^^^ b) = crcBit a ^^^ crcBit b := by
  have hm := xor_mod_two a b
  unfold crcBit
  rcases Nat.mod_two_eq_zero_or_one a with h1 | h1 <;>
    rcases Nat.mod_two_eq_zero_or_one b with h2 | h2 <;>
    rw [h1, h2] at hm <;>
    simp only [Nat.xor_self, Nat.xor_zero, Nat.zero_xor] at hm <;>
    simp [h1, h2, hm, xor_div_two, Nat.xor_assoc, Nat.xor_comm,
      xor_left_comm, xor_xor_cancel, Nat.xor_self, Nat.xor_zero]

theorem crcBit_lt (s : Nat) (hs : s < 2 ^ 32) : crcBit s < 2 ^ 32 := by
  unfold crcBit
  split
  · exact Nat.xor_lt_two_pow (by omega) (by decide)
  · omega

theorem crcBit_inj (s t : Nat) (hs : s < 2 ^ 32) (ht : t < 2 ^ 32)
    (h : crcBit s = crcBit t) : s = t := by
  have hbit : ∀ a b : Nat, a < 2 ^ 32 → b < 2 ^ 32 →
      ¬ (a / 2 ^^^ crcPoly = b / 2) := by
    intro a b _ _ hc
    have hb := congrArg (fun x => x.testBit 31) hc
    simp only [Nat.testBit_xor] at hb
    rw [Nat.testBit_lt_two_pow (show a / 2 < 2 ^ 31 by omega),
      Nat.testBit_lt_two_pow (show b / 2 < 2 ^ 31 by omega)] at hb
    rw [show crcPoly.testBit 31 = true from by decide] at hb
    simp at hb
  unfold crcBit at h
  rcases Nat.mod_two_eq_zero_or_one s with h1 | h1 <;>
    rcases Nat.mod_two_eq_zero_or_one t with h2 | h2
  · rw [if_neg (by omega), if_neg (by omega)] at h
    omega
  · rw [if_neg (by omega), if_pos h2] at h
    exact absurd h.symm (hbit t s ht hs)
  · rw [if_pos h1, if_neg (by omega)] at h
    exact absurd h (hbit s t hs ht)
  · rw [if_pos h1, if_pos h2] at h
    have hd : s / 2 = t / 2 := by
      have hcc := congrArg (fun x => x ^^^ crcPoly) h
      simpa [Nat.xor_assoc, Nat.xor_self, Nat.xor_zero] using hcc
    omega

theorem crcBit_iter_lt (k : Nat) : ∀ s : Nat, s < 2 ^ 32 →
    crcBit^[k] s < 2 ^ 32 := by
  induction k with
  | zero => exact fun s hs => hs
  | succ k ih =>
    intro s hs
    rw [Function.iterate_succ_apply]
    exact ih _ (crcBit_lt s hs)

theorem crcBit_iter_linear (k : Nat) : ∀ a b : Nat,
    crcBit^[k] (a ^^^ b) = crcBit^[k] a ^^^ crcBit^[k] b := by
  induction k with
  | zero => exact fun a b => rfl
  | succ k ih =>
    intro a b
    rw [Function.iterate_succ_apply, Function.iterate_succ_apply,
      Function.iterate_succ_apply, crcBit_linear]
    exact ih _ _

theorem crcBit_iter_ne_zero (k : Nat) : ∀ e : Nat, e < 2 ^ 32 → e ≠ 0 →
    crcBit^[k] e ≠ 0 := by
  induction k with
  | zero => exact fun e _ hne => hne
  | succ k ih =>
    intro e he hne
    rw [Function.iterate_succ_apply]
    refine ih _ (crcBit_lt e he) ?_
    intro h0
    exact hne (crcBit_inj e 0 he (by decide) (h0.trans crcBit_zero.symm))

theorem crcByte_linear (s t b c : Nat) :
    crcByte (s ^^^ t) (b ^^^ c) = crcByte s b ^^^ crcByte t c := by
  unfold crcByte
  rw [← crcBit_iter_linear]
  congr 1
  simp [Nat.xor_assoc, Nat.xor_comm, xor_left_comm]

theorem crcUpdate_cons (s b : Nat) (l : List Nat) :
    crcUpdate s (b :: l) = crcUpdate (crcByte s b) l := rfl

theorem crcUpdate_append (s : Nat) (l1 l2 : List Nat) :
    crcUpdate s (l1 ++ l2) = crcUpdate (crcUpdate s l1) l2 :=
  List.foldl_append ..

theorem crcUpdate_zipWith (l1 : List Nat) : ∀ (l2 : List Nat),
    l1.length = l2.length → ∀ s t : Nat,
    crcUpdate (s ^^^ t) (List.zipWith (fun x y => x ^^^ y) l1 l2)
      = crcUpdate s l1 ^^^ crcUpdate t l2 := by
  induction l1 with
  | nil =>
    intro l2 h s t
    rw [List.length_nil] at h
    rw [(List.length_eq_zero.mp h.symm : l2 = [])]
    rfl
  | cons a l1 ih =>
    intro l2 h s t
    cases l2 with
    | nil => simp at h
    | cons b l2 =>
      simp only [List.zipWith_cons_cons, crcUpdate_cons, crcByte_linear]
      exact ih l2 (by simpa using h) _ _

theorem crcUpdate_replicate_zero (m : Nat) : ∀ s : Nat,
    crcUpdate s (List.replicate m 0) = crcBit^[8 * m] s := by
  induction m with
  | zero => exact fun s => rfl
  | succ m ih =>
    intro s
    rw [List.replicate_succ, crcUpdate_cons, ih]
    unfold crcByte
    rw [Nat.xor_zero, show 8 * (m + 1) = 8 * m + 8 by ring,
      Function.iterate_add_apply]

theorem map_xor_self (l : List Nat) :
    l.map (fun a => a ^^^ a) = List.replicate l.length 0 := by
  induction l with
  | nil => rfl
  | cons a l ih => simp [Nat.xor_self, List.replicate_succ, ih]

theorem crc32_ne_aux (pre post : List Nat) (x v : Nat) (hx : x < 2 ^ 32)
    (hv : v < 2 ^ 32) (hne : v ≠ x) :
    crc32 (pre ++ v :: post) ≠ crc32 (pre ++ x :: post) := by
  intro heq
  have hzip : List.zipWith (fun a b => a ^^^ b) (pre ++ v :: post)
      (pre ++ x :: post)
      = List.replicate pre.length 0 ++
          (v ^^^ x) :: List.replicate post.length 0 := by
    rw [List.zipWith_append _ _ _ _ _ rfl]
    simp only [List.zipWith_cons_cons, List.zipWith_same, map_xor_self]
  have hlen : (pre ++ v :: post).length = (pre ++ x :: post).length := by
    simp
  have H := crcUpdate_zipWith (pre ++ v :: post) (pre ++ x :: post) hlen
    0xFFFFFFFF 0xFFFFFFFF
  rw [hzip, Nat.xor_self] at H
  have hD : crcUpdate 0 (List.replicate pre.length 0 ++
      (v ^^^ x) :: List.replicate post.length 0) ≠ 0 := by
    rw [crcUpdate_append, crcUpdate_replicate_zero,
      Function.iterate_fixed crcBit_zero, crcUpdate_cons,
      crcUpdate_replicate_zero]
    unfold crcByte
    rw [Nat.zero_xor, ← Function.iterate_add_apply]
    apply crcBit_iter_ne_zero
    · exact Nat.xor_lt_two_pow hv hx
    · rw [Ne, Nat.xor_eq_zero]
      exact hne
  have hu : crcUpdate 0xFFFFFFFF (pre ++ v :: post)
      = crcUpdate 0xFFFFFFFF (pre ++ x :: post) := by
    unfold crc32 at heq
    have h2 := congrArg (fun z => z ^^^ 0xFFFFFFFF) heq
    simpa [Nat.xor_assoc, Nat.xor_self, Nat.xor_zero] using h2
  rw [hu, Nat.xor_self] at H
  exact hD H

theorem crc32_ne_of_set (l : List Nat) (i v : Nat) (hi : i < l.length)
    (hb : l[i] < 2 ^ 32) (hv : v < 2 ^ 32) (hne : v ≠ l[i]) :
    crc32 (l.set i v) ≠ crc32 l := by
  have hset : l.set i v = l.take i ++ v :: l.drop (i + 1) := by
    rw [List.set_eq_take_append_cons_drop, if_pos hi]
  have hl : l = l.take i ++ l[i] :: l.drop (i + 1) := by
    nth_rewrite 1 [← List.take_append_drop i l]
    rw [List.drop_eq_getElem_cons hi]
  rw [hset]
  conv_rhs => rw [hl]
  exact crc32_ne_aux (l.take i) (l.drop (i + 1)) l[i] v hb hv hne

/-! ## Big-endian byte strings and list surgery lemmas -/

theorem beBytes_length (w : Nat) : ∀ v : Nat, (beBytes w v).length = w := by
  induction w with
  | zero => intro v; rfl
  | succ w ih => intro v; simp [beBytes, ih]

theorem beBytes_lt (w : Nat) : ∀ v : Nat, ∀ b ∈ beBytes w v, b < 256 := by
  induction w with
  | zero => intro v b hb; simp [beBytes] at hb
  | succ w ih =>
    intro v b hb
    simp only [beBytes, List.mem_append, List.mem_singleton] at hb
    rcases hb with h | rfl
    · exact ih _ b h
    · exact Nat.mod_lt _ (by decide)

theorem beVal_beBytes (w : Nat) : ∀ v : Nat,
    beVal (beBytes w v) = v % 256 ^ w := by
  induction w with
  | zero => intro v; simp [beBytes, beVal, Nat.mod_one]
  | succ w ih =>
    intro v
    unfold beBytes
    rw [show beVal (beBytes w (v / 256) ++ [v % 256])
        = beVal (beBytes w (v / 256)) * 256 + v % 256 from
      List.foldl_append .., ih]
    rw [show (256 : Nat) ^ (w + 1) = 256 * 256 ^ w from by ring, Nat.mod_mul]
    ring

theorem foldl_be (l : List Nat) : ∀ a : Nat,
    l.foldl (fun x b => x * 256 + b) a = a * 256 ^ l.length + beVal l := by
  induction l with
  | nil => intro a; simp [beVal]
  | cons b l ih =>
    intro a
    have hv : beVal (b :: l) = b * 256 ^ l.length + beVal l := by
      have hc : beVal (b :: l)
          = List.foldl (fun x c => x * 256 + c) (0 * 256 + b) l := rfl
      rw [hc, ih]
      ring
    rw [List.foldl_cons, ih, hv, List.length_cons]
    ring

theorem beVal_append_cons (pre post : List Nat) (y : Nat) :
    beVal (pre ++ y :: post)
      = (beVal pre * 256 + y) * 256 ^ post.length + beVal post := by
  unfold beVal
  rw [List.foldl_append, List.foldl_cons,
    foldl_be post (List.foldl (fun x b => x * 256 + b) 0 pre * 256 + y)]
  rfl

theorem beVal_set_ne (l : List Nat) (j v : Nat) (hj : j < l.length)
    (hne : v ≠ l[j]) : beVal (l.set j v) ≠ beVal l := by
  have hset : l.set j v = l.take j ++ v :: l.drop (j + 1) := by
    rw [List.set_eq_take_append_cons_drop, if_pos hj]
  have hl : l = l.take j ++ l[j] :: l.drop (j + 1) := by
    nth_rewrite 1 [← List.take_append_drop j l]
    rw [List.drop_eq_getElem_cons hj]
  rw [hset]
  conv_rhs => rw [hl]
  rw [beVal_append_cons, beVal_append_cons]
  intro h
  have hK : 0 < 256 ^ (l.drop (j + 1)).length := pow_pos (by decide) _
  have h1 : (beVal (l.take j) * 256 + v) * 256 ^ (l.drop (j + 1)).length
      = (beVal (l.take j) * 256 + l[j]) * 256 ^ (l.drop (j + 1)).length := by
    omega
  have h2 := Nat.eq_of_mul_eq_mul_right hK h1
  exact hne (by omega)

theorem take_set_of_le {α : Type} (l : List α) (i : Nat) (v : α) (n : Nat)
    (h : n ≤ i) : (l.set i v).take n = l.take n := by
  apply List.ext_getElem
  · simp
  · intro j h1 h2
    rw [List.getElem_take, List.getElem_take]
    exact List.getElem_set_ne (by simp at h1; omega) _

theorem set_take {α : Type} (l : List α) (i : Nat) (v : α) (n : Nat)
    (_h : i < n) : (l.set i v).take n = (l.take n).set i v := by
  apply List.ext_getElem
  · simp
  · intro j h1 h2
    rw [List.getElem_take]
    by_cases hij : i = j
    · subst hij
      rw [List.getElem_set_self, List.getElem_set_self]
    · rw [List.getElem_set_ne hij, List.getElem_set_ne hij,
        List.getElem_take]

theorem drop_set_of_lt {α : Type} (l : List α) (i : Nat) (v : α) (n : Nat)
    (h : i < n) : (l.set i v).drop n = l.drop n := by
  apply List.ext_getElem
  · simp
  · intro j h1 h2
    rw [List.getElem_drop, List.getElem_drop]
    exact List.getElem_set_ne (by omega) _

theorem set_drop {α : Type} (l : List α) (i : Nat) (v : α) (n : Nat)
    (h : n ≤ i) : (l.set i v).drop n = (l.drop n).set (i - n) v := by
  apply List.ext_getElem
  · simp
  · intro j h1 h2
    rw [List.getElem_drop]
    simp only [List.getElem_set]
    by_cases hij : i = n + j
    · rw [if_pos hij, if_pos (by omega)]
    · rw [if_neg hij, if_neg (by omega), List.getElem_drop]

/-! ## Claim C8: the packet codec -/

theorem crcUpdate_lt (l : List Nat) : ∀ s : Nat, s < 2 ^ 32 →
    (∀ b ∈ l, b < 2 ^ 32) → crcUpdate s l < 2 ^ 32 := by
  induction l with
  | nil => exact fun s hs _ => hs
  | cons b l ih =>
    intro s hs hb
    rw [crcUpdate_cons]
    refine ih _ ?_ (fun x hx => hb x (List.mem_cons_of_mem _ hx))
    unfold crcByte
    exact crcBit_iter_lt 8 _
      (Nat.xor_lt_two_pow hs (hb b (List.mem_cons_self ..)))

theorem crc32_lt (l : List Nat) (hb : ∀ b ∈ l, b < 256) :
    crc32 l < 2 ^ 32 := by
  unfold crc32
  refine Nat.xor_lt_two_pow ?_ (by decide)
  exact crcUpdate_lt l _ (by decide)
    (fun b h => lt_trans (hb b h) (by decide))

theorem set_ne_of_getElem_ne {α : Type} (l : List α) (i : Nat) (v : α)
    (hi : i < l.length) (hne : v ≠ l[i]) : l.set i v ≠ l := by
  intro h
  have h2 := congrArg (fun t => t.getD i (l[i])) h
  simp only at h2
  rw [List.getD_eq_getElem _ _ (by simpa using hi),
    List.getD_eq_getElem _ _ hi, List.getElem_set_self (by simpa using hi)]
    at h2
  exact hne h2

theorem packetBody_length (p : Packet) (h16 : p.sessionId.length = 16) :
    (packetBody p).length = 38 + p.payload.length := by
  simp [packetBody, beBytes_length, h16, magicBytes]
  omega

theorem packetBody_bytes_lt (p : Packet) (hwf : p.Wf) :
    ∀ b ∈ packetBody p, b < 256 := by
  obtain ⟨h1, h2, h16, hsb, h5, h6, h7, hpb, h9⟩ := hwf
  unfold packetBody
  refine List.forall_mem_append.mpr ⟨?_, hpb⟩
  refine List.forall_mem_append.mpr ⟨?_, by intro b hb; simp at hb; omega⟩
  refine List.forall_mem_append.mpr ⟨?_, by intro b hb; simp at hb; omega⟩
  refine List.forall_mem_append.mpr ⟨?_, beBytes_lt 4 p.seq⟩
  refine List.forall_mem_append.mpr ⟨?_, beBytes_lt 8 p.chunkId⟩
  refine List.forall_mem_append.mpr ⟨?_, hsb⟩
  refine List.forall_mem_append.mpr ⟨?_, by intro b hb; simp at hb; omega⟩
  refine List.forall_mem_append.mpr ⟨?_, by intro b hb; simp at hb; omega⟩
  intro b hb
  simp [magicBytes] at hb
  omega

theorem serialize_ok (p : Packet) (h9 : p.payload.length ≤ maxPayload) :
    SerializePacket p
      = .ok (packetBody p ++ beBytes 4 (crc32 (packetBody p)),
        { p with checksum := crc32 (packetBody p) }) := by
  unfold SerializePacket
  rw [if_neg (by omega)]

theorem deserialize_serialize (p : Packet) (hwf : p.Wf) :
    DeserializePacket (packetBody p ++ beBytes 4 (crc32 (packetBody p)))
      = .ok { p with checksum := crc32 (packetBody p) } := by
  obtain ⟨hv1, hv2, h16, hsb, hv5, hv6, hv7, hpb, hv9⟩ := hwf
  set ck := crc32 (packetBody p) with hckdef
  set data := packetBody p ++ beBytes 4 ck with hdata
  have hbodylen : (packetBody p).length = 38 + p.payload.length :=
    packetBody_length p h16
  have hdatalen : data.length = 42 + p.payload.length := by
    rw [hdata]
    simp [hbodylen, beBytes_length]
    omega
  have hS0 : data = magicBytes ++ ([p.version] ++ ([p.type] ++
      (p.sessionId ++ (beBytes 8 p.chunkId ++ (beBytes 4 p.seq ++
      ([p.priority] ++ ([0, 0, 0] ++
      (p.payload ++ beBytes 4 ck)))))))) := by
    rw [hdata]
    simp [packetBody, List.append_assoc]
  have htake4 : data.take 4 = magicBytes := by
    rw [hS0]
    exact List.take_left' rfl
  have h4 : data.drop 4 = [p.version] ++ ([p.type] ++ (p.sessionId ++
      (beBytes 8 p.chunkId ++ (beBytes 4 p.seq ++ ([p.priority] ++
      ([0, 0, 0] ++ (p.payload ++ beBytes 4 ck))))))) := by
    rw [hS0]
    exact List.drop_left' rfl
  have h5 : data.drop 5 = [p.type] ++ (p.sessionId ++
      (beBytes 8 p.chunkId ++ (beBytes 4 p.seq ++ ([p.priority] ++
      ([0, 0, 0] ++ (p.payload ++ beBytes 4 ck)))))) := by
    have hd : data.drop 5 = (data.drop 4).drop 1 := by rw [List.drop_drop]
    rw [hd, h4]
    exact List.drop_left' rfl
  have h6 : data.drop 6 = p.sessionId ++ (beBytes 8 p.chunkId ++
      (beBytes 4 p.seq ++ ([p.priority] ++ ([0, 0, 0] ++
      (p.payload ++ beBytes 4 ck))))) := by
    have hd : data.drop 6 = (data.drop 5).drop 1 := by rw [List.drop_drop]
    rw [hd, h5]
    exact List.drop_left' rfl
  have h22 : data.drop 22 = beBytes 8 p.chunkId ++ (beBytes 4 p.seq ++
      ([p.priority] ++ ([0, 0, 0] ++ (p.payload ++ beBytes 4 ck)))) := by
    have hd : data.drop 22 = (data.drop 6).drop 16 := by rw [List.drop_drop]
    rw [hd, h6]
    exact List.drop_left' h16
  have h30 : data.drop 30 = beBytes 4 p.seq ++ ([p.priority] ++
      ([0, 0, 0] ++ (p.payload ++ beBytes 4 ck))) := by
    have hd : data.drop 30 = (data.drop 22).drop 8 := by rw [List.drop_drop]
    rw [hd, h22]
    exact List.drop_left' (beBytes_length 8 p.chunkId)
  have h34 : data.drop 34 = [p.priority] ++ ([0, 0, 0] ++
      (p.payload ++ beBytes 4 ck)) := by
    have hd : data.drop 34 = (data.drop 30).drop 4 := by rw [List.drop_drop]
    rw [hd, h30]
    exact List.drop_left' (beBytes_length 4 p.seq)
  have h35 : data.drop 35 = [0, 0, 0] ++ (p.payload ++ beBytes 4 ck) := by
    have hd : data.drop 35 = (data.drop 34).drop 1 := by rw [List.drop_drop]
    rw [hd, h34]
    exact List.drop_left' rfl
  have h38 : data.drop 38 = p.payload ++ beBytes 4 ck := by
    have hd : data.drop 38 = (data.drop 35).drop 3 := by rw [List.drop_drop]
    rw [hd, h35]
    exact List.drop_left' rfl
  have hlen38 : (data.drop 38).length = p.payload.length + 4 := by
    rw [h38]
    simp [beBytes_length]
  have hpay : (data.drop 38).take ((data.drop 38).length - 4)
      = p.payload := by
    rw [hlen38, show p.payload.length + 4 - 4 = p.payload.length from by
      omega, h38]
    exact List.take_left' rfl
  have hcks : (data.drop 38).drop ((data.drop 38).length - 4)
      = beBytes 4 ck := by
    rw [hlen38, show p.payload.length + 4 - 4 = p.payload.length from by
      omega, h38]
    exact List.drop_left' rfl
  have hcklt : ck < 2 ^ 32 := by
    rw [hckdef]
    exact crc32_lt (packetBody p) (packetBody_bytes_lt p
      ⟨hv1, hv2, h16, hsb, hv5, hv6, hv7, hpb, hv9⟩)
  have hckval : beVal ((data.drop 38).drop ((data.drop 38).length - 4))
      = ck := by
    rw [hcks, beVal_beBytes]
    exact Nat.mod_eq_of_lt (lt_of_lt_of_le hcklt (by norm_num))
  have hcalc : CalculateChecksum data = ck := by
    unfold CalculateChecksum checksumSize
    rw [if_neg (by omega)]
    rw [show data.length - 4 = (packetBody p).length from by omega]
    rw [hdata, List.take_left]
  have hverify : VerifyChecksum data
      (beVal ((data.drop 38).drop ((data.drop 38).length - 4))) = true := by
    unfold VerifyChecksum
    rw [hckval, hcalc]
    simp
  unfold DeserializePacket headerSize checksumSize
  rw [if_neg (by omega), if_neg (not_not_intro htake4),
    if_neg (by omega), if_neg (by rw [hverify]; simp)]
  rw [h4, h5, h6, h22, h30, h34]
  rw [List.take_left' h16, List.take_left' (beBytes_length 8 p.chunkId),
    List.take_left' (beBytes_length 4 p.seq), hpay, hckval]
  rw [beVal_beBytes, beVal_beBytes]
  rw [Nat.mod_eq_of_lt (lt_of_lt_of_le hv5 (by norm_num)),
    Nat.mod_eq_of_lt (lt_of_lt_of_le hv6 (by norm_num))]
  rfl

theorem getD_take {α : Type} (l : List α) (n i : Nat) (d : α) (hi : i < n)
    (hl : i < l.length) : (l.take n).getD i d = l.getD i d := by
  rw [List.getD_eq_getElem _ _ (by simp; omega),
    List.getD_eq_getElem _ _ hl]
  exact List.getElem_take ..

theorem getD_append_left {α : Type} (l1 l2 : List α) (i : Nat) (d : α)
    (h : i < l1.length) : (l1 ++ l2).getD i d = l1.getD i d := by
  rw [List.getD_eq_getElem _ _ (by simp; omega),
    List.getD_eq_getElem _ _ h]
  exact List.getElem_append_left h

theorem getD_append_right {α : Type} (l1 l2 : List α) (i : Nat) (d : α)
    (h : l1.length ≤ i) (h2 : i < l1.length + l2.length) :
    (l1 ++ l2).getD i d = l2.getD (i - l1.length) d := by
  rw [List.getD_eq_getElem _ _ (by simp; omega),
    List.getD_eq_getElem _ _ (by omega)]
  exact List.getElem_append_right h

theorem set_ne_of_getD_ne {α : Type} (l : List α) (i : Nat) (v d : α)
    (hi : i < l.length) (hne : v ≠ l.getD i d) : l.set i v ≠ l := by
  intro h
  have h2 := congrArg (fun t => t.getD i d) h
  simp only at h2
  rw [List.getD_eq_getElem _ _ (by simpa using hi),
    List.getD_eq_getElem _ _ hi,
    List.getElem_set_self (by simpa using hi)] at h2
  exact hne (h2.trans (List.getD_eq_getElem _ _ hi).symm)

theorem packetBody_append_assoc (p : Packet) (l : List Nat) :
    packetBody p ++ l = magicBytes ++ ([p.version] ++ ([p.type] ++
      (p.sessionId ++ (beBytes 8 p.chunkId ++ (beBytes 4 p.seq ++
      ([p.priority] ++ ([0, 0, 0] ++ (p.payload ++ l)))))))) := by
  simp [packetBody, List.append_assoc]

theorem deserialize_flip (p : Packet) (hwf : p.Wf) (i v : Nat)
    (hi : i < (packetBody p ++ beBytes 4 (crc32 (packetBody p))).length)
    (hv : v < 256)
    (hne : v ≠ (packetBody p ++ beBytes 4 (crc32 (packetBody p))).getD i 0) :
    (i < 4 →
      DeserializePacket
          ((packetBody p ++ beBytes 4 (crc32 (packetBody p))).set i v)
        = .error "invalid magic") ∧
    (4 ≤ i →
      DeserializePacket
          ((packetBody p ++ beBytes 4 (crc32 (packetBody p))).set i v)
        = .error "checksum verification failed") := by
  obtain ⟨hv1, hv2, h16, hsb, hv5, hv6, hv7, hpb, hv9⟩ := hwf
  set ck := crc32 (packetBody p) with hckdef
  set data := packetBody p ++ beBytes 4 ck with hdata
  have hbodylen : (packetBody p).length = 38 + p.payload.length :=
    packetBody_length p h16
  have hdatalen : data.length = 42 + p.payload.length := by
    rw [hdata]
    simp [hbodylen, beBytes_length]
    omega
  have hlen' : (data.set i v).length = data.length := List.length_set ..
  have htake4 : data.take 4 = magicBytes := by
    rw [hdata, packetBody_append_assoc]
    exact List.take_left' rfl
  have hcklt : ck < 2 ^ 32 := by
    rw [hckdef]
    exact crc32_lt (packetBody p) (packetBody_bytes_lt p
      ⟨hv1, hv2, h16, hsb, hv5, hv6, hv7, hpb, hv9⟩)
  have hckval : beVal (beBytes 4 ck) = ck := by
    rw [beVal_beBytes]
    exact Nat.mod_eq_of_lt (lt_of_lt_of_le hcklt (by norm_num))
  have hbody_take : data.take (38 + p.payload.length) = packetBody p := by
    rw [hdata, ← hbodylen]
    exact List.take_left ..
  have hbody_drop : data.drop (38 + p.payload.length) = beBytes 4 ck := by
    rw [hdata, ← hbodylen]
    exact List.drop_left ..
  have hstored : ∀ d : List Nat, d.length = data.length →
      (d.drop 38).drop ((d.drop 38).length - 4)
        = d.drop (38 + p.payload.length) := by
    intro d hd
    rw [List.length_drop, hd, hdatalen,
      show 42 + p.payload.length - 38 - 4 = p.payload.length from by omega,
      List.drop_drop]
  constructor
  · intro hlt
    have hm : v ≠ magicBytes.getD i 0 := by
      have hmd : magicBytes.getD i 0 = data.getD i 0 := by
        rw [← htake4]
        exact getD_take data 4 i 0 hlt (by omega)
      rw [hmd]
      exact hne
    have hset4 : (data.set i v).take 4 = magicBytes.set i v := by
      rw [set_take data i v 4 hlt, htake4]
    unfold DeserializePacket headerSize checksumSize
    rw [if_neg (by omega), if_pos ?magicbad]
    case magicbad =>
      rw [hset4]
      exact set_ne_of_getD_ne magicBytes i v 0
        (by simp [magicBytes]; omega) hm
  · intro hge
    have htk4' : (data.set i v).take 4 = magicBytes := by
      rw [take_set_of_le data i v 4 hge, htake4]
    have hrem : ((data.set i v).drop 38).length = p.payload.length + 4 := by
      rw [List.length_drop, hlen', hdatalen]
      omega
    rcases Nat.lt_or_ge i (38 + p.payload.length) with hA | hB
    · have hcalcA : CalculateChecksum (data.set i v)
          = crc32 ((packetBody p).set i v) := by
        unfold CalculateChecksum checksumSize
        rw [hlen']
        rw [if_neg (by omega)]
        rw [show data.length - 4 = 38 + p.payload.length from by omega]
        rw [set_take data i v _ hA, hbody_take]
      have hstoredA : (data.set i v).drop (38 + p.payload.length)
          = beBytes 4 ck := by
        rw [drop_set_of_lt data i v _ hA, hbody_drop]
      have hdiffA : crc32 ((packetBody p).set i v) ≠ ck := by
        rw [hckdef]
        apply crc32_ne_of_set (packetBody p) i v (by omega)
        · exact lt_trans (packetBody_bytes_lt p
            ⟨hv1, hv2, h16, hsb, hv5, hv6, hv7, hpb, hv9⟩ _
            (List.getElem_mem _)) (by decide)
        · omega
        · have hd : data.getD i 0
              = (packetBody p).getD i 0 := by
            rw [hdata]
            exact getD_append_left _ _ _ _ (by omega)
          rw [hd, List.getD_eq_getElem _ _ (by omega)] at hne
          exact hne
      have hcond : VerifyChecksum (data.set i v)
          (beVal (((data.set i v).drop 38).drop
            (((data.set i v).drop 38).length - 4))) = false := by
        rw [hstored (data.set i v) hlen', hstoredA, hckval]
        unfold VerifyChecksum
        rw [hcalcA]
        exact decide_eq_false hdiffA
      unfold DeserializePacket headerSize checksumSize
      rw [if_neg (by omega), if_neg (not_not_intro htk4'),
        if_neg (by omega), if_pos hcond]
    · have hcalcB : CalculateChecksum (data.set i v) = ck := by
        unfold CalculateChecksum checksumSize
        rw [hlen']
        rw [if_neg (by omega)]
        rw [show data.length - 4 = 38 + p.payload.length from by omega]
        rw [take_set_of_le data i v _ hB, hbody_take]
      have hstoredB : (data.set i v).drop (38 + p.payload.length)
          = (beBytes 4 ck).set (i - (38 + p.payload.length)) v := by
        rw [set_drop data i v _ hB, hbody_drop]
      have hjlt : i - (38 + p.payload.length) < (beBytes 4 ck).length := by
        rw [beBytes_length]
        omega
      have hvne : v ≠ (beBytes 4 ck)[i - (38 + p.payload.length)] := by
        have hd : data.getD i 0
            = (beBytes 4 ck).getD (i - (packetBody p).length) 0 := by
          rw [hdata]
          exact getD_append_right _ _ _ _ (by omega)
            (by rw [beBytes_length]; omega)
        rw [hd, hbodylen, List.getD_eq_getElem _ _ hjlt] at hne
        exact hne
      have hsne : beVal ((beBytes 4 ck).set (i - (38 + p.payload.length)) v)
          ≠ ck := by
        intro h
        exact beVal_set_ne (beBytes 4 ck) _ v hjlt hvne
          (h.trans hckval.symm)
      have hcond : VerifyChecksum (data.set i v)
          (beVal (((data.set i v).drop 38).drop
            (((data.set i v).drop 38).length - 4))) = false := by
        rw [hstored (data.set i v) hlen', hstoredB]
        unfold VerifyChecksum
        rw [hcalcB]
        exact decide_eq_false (fun h => hsne h.symm)
      unfold DeserializePacket headerSize checksumSize
      rw [if_neg (by omega), if_neg (not_not_intro htk4'),
        if_neg (by omega), if_pos hcond]

/-- C8 (amended): for every well-formed packet `p` with payload at most
64 KiB, `SerializePacket` succeeds, stores the computed CRC-32 into the
packet's checksum field, and `DeserializePacket` of the serialized bytes
returns exactly that (updated) packet; and replacing any single byte of
the serialized form with a different byte value makes `DeserializePacket`
fail — on the magic check (`"invalid magic"`) when one of the first four
bytes is changed, and on the checksum check
(`"checksum verification failed"`) for every other byte. -/
theorem c8_packet_codec (p : Packet) (hwf : p.Wf) :
    SerializePacket p
      = .ok (packetBody p ++ beBytes 4 (crc32 (packetBody p)),
        { p with checksum := crc32 (packetBody p) }) ∧
    DeserializePacket (packetBody p ++ beBytes 4 (crc32 (packetBody p)))
      = .ok { p with checksum := crc32 (packetBody p) } ∧
    (∀ i v,
      i < (packetBody p ++ beBytes 4 (crc32 (packetBody p))).length →
      v < 256 →
      v ≠ (packetBody p ++ beBytes 4 (crc32 (packetBody p))).getD i 0 →
      (i < 4 →
        DeserializePacket
            ((packetBody p ++ beBytes 4 (crc32 (packetBody p))).set i v)
          = .error "invalid magic") ∧
      (4 ≤ i →
        DeserializePacket
            ((packetBody p ++ beBytes 4 (crc32 (packetBody p))).set i v)
          = .error "checksum verification failed")) :=
  ⟨serialize_ok p hwf.2.2.2.2.2.2.2.2, deserialize_serialize p hwf,
    fun i v hi hv hne => deserialize_flip p hwf i v hi hv hne⟩

/-- C8 counterexample: the claim as stated says any single-byte
corruption "causes DeserializePacket to fail the checksum check"; but
flipping byte 0 of a concrete serialized packet (a magic byte) makes
`DeserializePacket` fail the *magic* check instead. -/
theorem c8_counterexample :
    DeserializePacket ((packetBody samplePacket
        ++ beBytes 4 (crc32 (packetBody samplePacket))).set 0 0)
      = .error "invalid magic" := by
  decide

/-- C8 witness: the round-trip component of the amended theorem applied
to the concrete packet `samplePacket` (well-formedness by `decide`). -/
theorem c8_packet_codec_witness :
    DeserializePacket (packetBody samplePacket
        ++ beBytes 4 (crc32 (packetBody samplePacket)))
      = .ok { samplePacket with
              checksum := crc32 (packetBody samplePacket) } :=
  (c8_packet_codec samplePacket (by decide)).2.1


/-! ## C9: the erasure coder -/

theorem natCast_zmod_inj (a b : ℕ) (ha : a < 257) (hb : b < 257)
    (h : (a : ZMod 257) = (b : ZMod 257)) : a = b := by
  have h2 := congrArg ZMod.val h
  rwa [ZMod.val_natCast_of_lt ha, ZMod.val_natCast_of_lt hb] at h2

theorem rsInjOn (s : Finset ℕ) (hs : ∀ a ∈ s, a < 257) :
    Set.InjOn (fun n : ℕ => (n : ZMod 257)) ↑s := by
  intro a ha b hb h
  exact natCast_zmod_inj a b (hs a ha) (hs b hb) h

theorem lagrangeEvalAt_eq (s : Finset ℕ) (r : ℕ → ZMod 257) (x : ZMod 257) :
    lagrangeEvalAt s r x
      = Polynomial.eval x
          (Lagrange.interpolate s (fun n : ℕ => (n : ZMod 257)) r) := by
  rw [Lagrange.interpolate_apply, Polynomial.eval_finset_sum]
  refine Finset.sum_congr rfl fun i hi => ?_
  rw [Polynomial.eval_mul, Polynomial.eval_C, Lagrange.basis,
    Polynomial.eval_prod]
  refine congrArg (r i * ·) (Finset.prod_congr rfl fun j hj => ?_)
  rw [Lagrange.basisDivisor, Polynomial.eval_mul, Polynomial.eval_C,
    Polynomial.eval_sub, Polynomial.eval_X, Polynomial.eval_C]

theorem lagrangeEvalAt_congr (s : Finset ℕ) (r r' : ℕ → ZMod 257)
    (x : ZMod 257) (h : ∀ i ∈ s, r i = r' i) :
    lagrangeEvalAt s r x = lagrangeEvalAt s r' x :=
  Finset.sum_congr rfl fun i hi => by rw [h i hi]

theorem lagrangeEvalAt_node (s : Finset ℕ) (r : ℕ → ZMod 257) (j : ℕ)
    (hs : ∀ a ∈ s, a < 257) (hj : j ∈ s) :
    lagrangeEvalAt s r ((j : ℕ) : ZMod 257) = r j := by
  rw [lagrangeEvalAt_eq]
  exact Lagrange.eval_interpolate_at_node r (rsInjOn s hs) hj

/-- Reconstruction: if `c` on `Finset.range n` is the evaluation of the
degree-`< D` interpolation of its first `D` values, then interpolating
through any `D` of its points recovers every value. -/
theorem lagrange_reconstruction (D n : ℕ) (hn : n ≤ 257) (hDn : D ≤ n)
    (c : ℕ → ZMod 257) (T : Finset ℕ) (hT : T ⊆ Finset.range n)
    (hTcard : T.card = D)
    (hc : ∀ j ∈ Finset.range n,
      c j = lagrangeEvalAt (Finset.range D) c ((j : ℕ) : ZMod 257))
    (t : ℕ) (ht : t ∈ Finset.range n) :
    lagrangeEvalAt T c ((t : ℕ) : ZMod 257) = c t := by
  have hsmall : ∀ s : Finset ℕ, s ⊆ Finset.range n → ∀ a ∈ s, a < 257 :=
    fun s hsub a ha => lt_of_lt_of_le (Finset.mem_range.mp (hsub ha)) hn
  have hrD : Finset.range D ⊆ Finset.range n :=
    Finset.range_subset.mpr hDn
  have hinjD : Set.InjOn (fun m : ℕ => (m : ZMod 257)) ↑(Finset.range D) :=
    rsInjOn _ (hsmall _ hrD)
  have hinjT : Set.InjOn (fun m : ℕ => (m : ZMod 257)) ↑T :=
    rsInjOn _ (hsmall _ hT)
  have hg : ∀ j ∈ Finset.range n,
      Polynomial.eval ((j : ℕ) : ZMod 257)
        (Lagrange.interpolate (Finset.range D)
          (fun m : ℕ => (m : ZMod 257)) c) = c j := by
    intro j hj
    rw [← lagrangeEvalAt_eq]
    exact (hc j hj).symm
  have hdeg0 : (Lagrange.interpolate (Finset.range D)
      (fun m : ℕ => (m : ZMod 257)) c).degree
        < ((Finset.range D).card : WithBot ℕ) :=
    Lagrange.degree_interpolate_lt c hinjD
  have hdeg : (Lagrange.interpolate (Finset.range D)
      (fun m : ℕ => (m : ZMod 257)) c).degree < (T.card : WithBot ℕ) := by
    rw [hTcard]
    simpa using hdeg0
  have heq : Lagrange.interpolate (Finset.range D)
        (fun m : ℕ => (m : ZMod 257)) c
      = Lagrange.interpolate T (fun m : ℕ => (m : ZMod 257)) c :=
    Lagrange.eq_interpolate_of_eval_eq c hinjT hdeg
      (fun j hj => hg j (hT hj))
  rw [lagrangeEvalAt_eq, ← heq]
  exact hg t ht

theorem getD_map_range {α : Type} (n : ℕ) (f : ℕ → α) (t : ℕ) (ht : t < n)
    (d : α) : ((List.range n).map f).getD t d = f t := by
  rw [List.getD_eq_getElem _ _ (by simpa using ht)]
  simp

theorem dataShardOf_length (data : List ℕ) (size i : ℕ) :
    (dataShardOf data size i).length = size := by
  simp [dataShardOf]

theorem padded_chunk (buf : List ℕ) (m j size : ℕ)
    (h : j + size ≤ buf.length + m) :
    ((buf ++ List.replicate m 0).drop j).take size
      = (buf.drop j).take size
        ++ List.replicate (size - ((buf.drop j).take size).length) 0 := by
  rw [List.drop_append_eq_append_drop, List.take_append_eq_append_take,
    List.drop_replicate, List.take_replicate]
  refine congrArg ((buf.drop j).take size ++ ·)
    (congrArg (fun k => List.replicate k 0) ?_)
  simp only [List.length_take, List.length_drop]
  omega

theorem chunksJoin {α : Type} (D size : ℕ) (l : List α)
    (hl : l.length = D * size) :
    ((List.range D).map (fun i => (l.drop (i * size)).take size)).flatten
      = l := by
  induction D generalizing l with
  | zero =>
    rw [Nat.zero_mul] at hl
    simp [List.eq_nil_of_length_eq_zero hl]
  | succ D ih =>
    rw [List.range_succ_eq_map]
    simp only [List.map_cons, List.flatten_cons, List.map_map]
    have hstep : ((fun i => (l.drop (i * size)).take size) ∘ (· + 1))
        = fun i => ((l.drop size).drop (i * size)).take size := by
      funext i
      simp only [Function.comp_apply]
      rw [List.drop_drop]
      refine congrArg (fun k => (l.drop k).take size) ?_
      ring
    rw [hstep, ih (l.drop size) (by
      rw [List.length_drop, hl, Nat.succ_mul]
      omega)]
    simp [Nat.zero_mul]

theorem length_filter_split {α : Type} (l : List α) (p : α → Bool) :
    (l.filter p).length + (l.filter (fun a => !(p a))).length = l.length := by
  induction l with
  | nil => rfl
  | cons a l ih =>
    cases h : p a <;> simp [List.filter_cons, h] <;> omega

theorem firstShardLen_of_all (shards : List (Option (List ℕ))) (size : ℕ)
    (h : ∀ o ∈ shards, ∀ s, o = some s → s.length = size)
    (hne : ∃ o ∈ shards, o ≠ none) : firstShardLen shards = size := by
  induction shards with
  | nil =>
    obtain ⟨o, ho, _⟩ := hne
    exact absurd ho (List.not_mem_nil o)
  | cons a rest ih =>
    match a with
    | none =>
      refine ih (fun o ho s hs => h o (List.mem_cons_of_mem _ ho) s hs) ?_
      obtain ⟨o, ho, hne2⟩ := hne
      rcases List.mem_cons.mp ho with rfl | hmem
      · exact absurd rfl hne2
      · exact ⟨o, hmem, hne2⟩
    | some s => exact h (some s) (List.mem_cons_self _ _) s rfl

theorem applyErasure_length (mask : List Bool) (shards : List (List ℕ)) :
    (applyErasure mask shards).length = min mask.length shards.length := by
  simp [applyErasure]

theorem applyErasure_getD (mask : List Bool) (shards : List (List ℕ)) (t : ℕ)
    (hm : t < mask.length) (hs : t < shards.length) :
    (applyErasure mask shards).getD t none
      = if mask.getD t false then none else some (shards.getD t []) := by
  rw [List.getD_eq_getElem _ _ (by
    rw [applyErasure_length]; omega)]
  simp only [applyErasure, List.getElem_zipWith]
  rw [List.getD_eq_getElem _ _ hm, List.getD_eq_getElem _ _ hs]

theorem encodeShards_length (D P : ℕ) (data : List ℕ) (size : ℕ) :
    (encodeShards D P data size).length = D + P := by
  simp [encodeShards]

theorem encodeShards_getD_lt (D P : ℕ) (data : List ℕ) (size t : ℕ)
    (ht : t < D) :
    (encodeShards D P data size).getD t [] = dataShardOf data size t := by
  rw [encodeShards, getD_append_left _ _ _ _ (by simpa using ht)]
  exact getD_map_range D _ t ht []

theorem ceil_le_mul (D len : ℕ) (hD : 0 < D) :
    len ≤ D * ((len + D - 1) / D) := by
  have h1 := Nat.div_add_mod (len + D - 1) D
  have h2 := Nat.mod_lt (len + D - 1) hD
  omega

theorem ceil_pos (D len : ℕ) (hD : 0 < D) (hlen : 0 < len) :
    0 < (len + D - 1) / D := by
  rw [Nat.lt_iff_add_one_le, Nat.le_div_iff_mul_le hD]
  omega

theorem rsEncode_encodeShards (D P : ℕ) (data : List ℕ) (size : ℕ)
    (hD : 0 < D) (hsize : 0 < size) :
    rsEncode D P (encodeShards D P data size)
      = .ok ((List.range (D + P)).map (fun t =>
          if t < D then dataShardOf data size t
          else rsParityShard D size (encodeShards D P data size) t)) := by
  have h0 : ((encodeShards D P data size).getD 0 []).length = size := by
    rw [encodeShards_getD_lt D P data size 0 hD, dataShardOf_length]
  rw [rsEncode, if_neg (by rw [encodeShards_length]; exact fun h => h rfl),
    h0, if_neg (by omega)]
  refine congrArg Except.ok (List.map_congr_left fun t ht => ?_)
  rcases Nat.lt_or_ge t D with h | h
  · rw [if_pos h, if_pos h, encodeShards_getD_lt D P data size t h]
  · rw [if_neg (by omega), if_neg (by omega)]

theorem dataShardOf_eq_padded (buf : List ℕ) (D size i : ℕ) (hi : i < D)
    (hlen : buf.length ≤ D * size) :
    dataShardOf buf size i
      = ((buf ++ List.replicate (D * size - buf.length) 0).drop
          (i * size)).take size := by
  have hmul : i * size + size ≤ D * size := by
    have h := Nat.mul_le_mul_right size (Nat.succ_le_of_lt hi)
    rw [Nat.succ_mul] at h
    omega
  exact (padded_chunk buf (D * size - buf.length) (i * size) size
    (by omega)).symm

theorem dataShards_flatten (buf : List ℕ) (D size : ℕ)
    (hlen : buf.length ≤ D * size) :
    ((List.range D).map (dataShardOf buf size)).flatten
      = buf ++ List.replicate (D * size - buf.length) 0 := by
  rw [List.map_congr_left (fun i hi =>
    dataShardOf_eq_padded buf D size i (List.mem_range.mp hi) hlen)]
  exact chunksJoin D size _ (by
    rw [List.length_append, List.length_replicate]
    omega)

theorem dataShardOf_bytes (buf : List ℕ) (size i : ℕ)
    (hbuf : ∀ b ∈ buf, b < 256) :
    ∀ b ∈ dataShardOf buf size i, b < 257 := by
  intro b hb
  rcases List.mem_append.mp hb with h | h
  · exact lt_trans
      (hbuf b (List.mem_of_mem_drop (List.mem_of_mem_take h))) (by omega)
  · rw [List.eq_of_mem_replicate h]
    omega

theorem rsParityShard_length (D size : ℕ) (shards : List (List ℕ)) (t : ℕ) :
    (rsParityShard D size shards t).length = size := by
  simp [rsParityShard]

theorem rsParityShard_getD (D size : ℕ) (shards : List (List ℕ)) (t k : ℕ)
    (hk : k < size) :
    (rsParityShard D size shards t).getD k 0 = rsParityByte D shards t k :=
  getD_map_range size _ k hk 0

theorem zmod257_val_lt (x : ZMod 257) : x.val < 257 :=
  ZMod.val_lt x

theorem zmod257_cast_val (x : ZMod 257) : ((x.val : ℕ) : ZMod 257) = x :=
  ZMod.natCast_rightInverse x

/-- Every shard of the encoded list is a codeword: each byte column, viewed
in `ZMod 257`, is the evaluation of the interpolation of its first `D`
entries. -/
theorem rs_codeword (D P size k : ℕ) (hD : 0 < D) (hDP : D + P ≤ 257)
    (hk : k < size) (E S : List (List ℕ))
    (hgetD : ∀ t, t < D + P →
      S.getD t [] = if t < D then E.getD t [] else rsParityShard D size E t) :
    ∀ j ∈ Finset.range (D + P),
      ((shardByte S j k : ℕ) : ZMod 257)
        = lagrangeEvalAt (Finset.range D)
            (fun i => ((shardByte S i k : ℕ) : ZMod 257))
            ((j : ℕ) : ZMod 257) := by
  intro j hj
  rw [Finset.mem_range] at hj
  rcases Nat.lt_or_ge j D with h | h
  · exact (lagrangeEvalAt_node (Finset.range D)
      (fun i => ((shardByte S i k : ℕ) : ZMod 257)) j
      (fun a ha => by have := Finset.mem_range.mp ha; omega)
      (Finset.mem_range.mpr h)).symm
  · have hb : shardByte S j k = rsParityByte D E j k := by
      rw [shardByte, hgetD j hj, if_neg (by omega),
        rsParityShard_getD D size E j k hk]
    rw [hb, rsParityByte, zmod257_cast_val]
    refine lagrangeEvalAt_congr _ _ _ _ (fun i hi => ?_)
    have hiD := Finset.mem_range.mp hi
    refine congrArg (fun m : ℕ => ((m : ℕ) : ZMod 257)) ?_
    rw [shardByte, shardByte, hgetD i (by omega), if_pos hiD]

theorem shard_bytes_lt (D P size : ℕ) (buf : List ℕ) (E S : List (List ℕ))
    (hbuf : ∀ b ∈ buf, b < 256)
    (hgetD : ∀ t, t < D + P →
      S.getD t [] = if t < D then dataShardOf buf size t
        else rsParityShard D size E t)
    (t k : ℕ) (ht : t < D + P) : shardByte S t k < 257 := by
  rw [shardByte, hgetD t ht]
  rcases Nat.lt_or_ge t D with h | h
  · rw [if_pos h]
    rcases Nat.lt_or_ge k (dataShardOf buf size t).length with hk | hk
    · rw [List.getD_eq_getElem _ _ hk]
      exact dataShardOf_bytes buf size t hbuf _ (List.getElem_mem hk)
    · rw [List.getD_eq_default _ _ hk]
      omega
  · rw [if_neg (by omega)]
    rcases Nat.lt_or_ge k size with hk | hk
    · rw [rsParityShard_getD D size E t k hk, rsParityByte]
      exact zmod257_val_lt _
    · rw [List.getD_eq_default _ _ (by rw [rsParityShard_length]; omega)]
      omega

theorem presentIdx_masked (D P : ℕ) (mask : List Bool) (S : List (List ℕ))
    (hmask : mask.length = D + P) (hS : S.length = D + P) :
    presentIdx (D + P) (applyErasure mask S)
      = (List.range (D + P)).filter (fun t => !(mask.getD t false)) := by
  rw [presentIdx]
  refine List.filter_congr fun t ht => ?_
  have htn := List.mem_range.mp ht
  rw [applyErasure_getD mask S t (by omega) (by omega)]
  cases h : mask.getD t false <;> simp [h]

theorem presentIdx_masked_length (D P : ℕ) (mask : List Bool)
    (S : List (List ℕ)) (hmask : mask.length = D + P) (hS : S.length = D + P)
    (hkill : ((List.range (D + P)).filter
      (fun t => mask.getD t false)).length ≤ P) :
    D ≤ (presentIdx (D + P) (applyErasure mask S)).length := by
  rw [presentIdx_masked D P mask S hmask hS]
  have h := length_filter_split (List.range (D + P))
    (fun t => mask.getD t false)
  rw [List.length_range] at h
  omega

theorem presentIdx_mem (n : ℕ) (shards : List (Option (List ℕ))) (j : ℕ)
    (hj : j ∈ presentIdx n shards) :
    j < n ∧ (shards.getD j none).isSome := by
  rw [presentIdx, List.mem_filter] at hj
  exact ⟨List.mem_range.mp hj.1, hj.2⟩

theorem presentIdx_nodup (n : ℕ) (shards : List (Option (List ℕ))) :
    (presentIdx n shards).Nodup :=
  (List.nodup_range n).filter _

theorem masked_present_val (mask : List Bool) (S : List (List ℕ)) (j : ℕ)
    (hm : j < mask.length) (hs : j < S.length)
    (hsome : ((applyErasure mask S).getD j none).isSome) :
    (applyErasure mask S).getD j none = some (S.getD j []) := by
  rw [applyErasure_getD mask S j hm hs] at hsome ⊢
  cases h : mask.getD j false
  · rfl
  · rw [h] at hsome
    exact absurd hsome (by simp)

theorem takeD_toFinset_card (Pl : List ℕ) (D : ℕ) (hnd : Pl.Nodup)
    (hlen : D ≤ Pl.length) : (Pl.take D).toFinset.card = D := by
  rw [List.toFinset_card_of_nodup
    (List.Nodup.sublist (List.take_sublist D Pl) hnd), List.length_take]
  omega

/-- Reconstruction round-trips: erasing at most `P` shards of a consistent
codeword shard list and running the modelled `Reconstruct` returns the
original shard list. -/
theorem rsReconstruct_masked (D P size : ℕ) (mask : List Bool)
    (S : List (List ℕ)) (hD : 0 < D) (hDP : D + P ≤ 257)
    (hS : S.length = D + P)
    (hSlen : ∀ t, t < D + P → (S.getD t []).length = size)
    (hcode : ∀ k, k < size → ∀ j ∈ Finset.range (D + P),
      ((shardByte S j k : ℕ) : ZMod 257)
        = lagrangeEvalAt (Finset.range D)
            (fun i => ((shardByte S i k : ℕ) : ZMod 257))
            ((j : ℕ) : ZMod 257))
    (hbytes : ∀ t k, t < D + P → shardByte S t k < 257)
    (hmask : mask.length = D + P)
    (hkill : ((List.range (D + P)).filter
      (fun t => mask.getD t false)).length ≤ P) :
    rsReconstruct D P (applyErasure mask S) = .ok S := by
  have hMlen : (applyErasure mask S).length = D + P := by
    rw [applyErasure_length, hmask, hS]
    omega
  have hpres := presentIdx_masked_length D P mask S hmask hS hkill
  have hval : ∀ j, j < D + P →
      ((applyErasure mask S).getD j none).isSome →
      (applyErasure mask S).getD j none = some (S.getD j []) :=
    fun j hj hs => masked_present_val mask S j (by omega) (by omega) hs
  have hallsome : ∀ o ∈ applyErasure mask S, ∀ s, o = some s →
      s.length = size := by
    intro o ho s hos
    obtain ⟨i, hi, hgi⟩ := List.mem_iff_getElem.mp ho
    rw [hMlen] at hi
    have hgd : (applyErasure mask S).getD i none = o := by
      rw [List.getD_eq_getElem _ _ (by rw [hMlen]; exact hi), hgi]
    have hsome : ((applyErasure mask S).getD i none).isSome := by
      rw [hgd, hos]
      rfl
    have hvi := hval i hi hsome
    rw [hgd, hos] at hvi
    injection hvi with hinj
    rw [hinj]
    exact hSlen i hi
  have hnonnil : presentIdx (D + P) (applyErasure mask S) ≠ [] := by
    intro h
    rw [h] at hpres
    simp at hpres
    omega
  obtain ⟨j0, hj0⟩ := List.exists_mem_of_ne_nil _ hnonnil
  obtain ⟨hj0n, hj0s⟩ := presentIdx_mem _ _ _ hj0
  have hex : ∃ o ∈ applyErasure mask S, o ≠ none := by
    refine ⟨(applyErasure mask S).getD j0 none, ?_, ?_⟩
    · rw [List.getD_eq_getElem _ _ (by rw [hMlen]; exact hj0n)]
      exact List.getElem_mem _
    · rw [hval j0 hj0n hj0s]
      exact Option.some_ne_none _
  have hfsl : firstShardLen (applyErasure mask S) = size :=
    firstShardLen_of_all _ size hallsome hex
  have hcons : shardsConsistent (applyErasure mask S) = true := by
    rw [shardsConsistent, List.all_eq_true]
    intro o ho
    cases o with
    | none => rfl
    | some s =>
      have hl := hallsome (some s) ho s rfl
      show (s.length == firstShardLen (applyErasure mask S)) = true
      rw [hfsl, hl]
      exact beq_self_eq_true size
  rw [rsReconstruct, if_neg (by rw [hMlen]; exact fun h => h rfl),
    if_neg (by omega), if_pos hcons, hfsl]
  refine congrArg Except.ok ?_
  refine List.ext_getElem (by simp [hS]) (fun t h1 h2 => ?_)
  rw [List.getElem_map, List.getElem_range]
  have ht : t < D + P := by rw [hS] at h2; exact h2
  simp only [rsReconShard]
  rcases hsome : (applyErasure mask S).getD t none with _ | s
  · -- erased shard: reconstructed by interpolation
    have hTcard :
        (((presentIdx (D + P) (applyErasure mask S)).take D).toFinset).card
          = D :=
      takeD_toFinset_card _ D (presentIdx_nodup _ _) hpres
    have hTsub :
        ((presentIdx (D + P) (applyErasure mask S)).take D).toFinset
          ⊆ Finset.range (D + P) := by
      intro a ha
      rw [List.mem_toFinset] at ha
      exact Finset.mem_range.mpr
        (presentIdx_mem _ _ _ (List.mem_of_mem_take ha)).1
    refine List.ext_getElem ?_ (fun k hk1 hk2 => ?_)
    · simp only [List.length_map, List.length_range]
      rw [← List.getD_eq_getElem S [] h2, hSlen t ht]
    · have hkk : k < size := by simpa using hk1
      rw [List.getElem_map, List.getElem_range]
      simp only [rsReconByte, hMlen]
      have hcongr : ∀ j ∈
          ((presentIdx (D + P) (applyErasure mask S)).take D).toFinset,
          ((rsShardByte (applyErasure mask S) j k : ℕ) : ZMod 257)
            = ((shardByte S j k : ℕ) : ZMod 257) := by
        intro j hjT
        rw [List.mem_toFinset] at hjT
        obtain ⟨hjn, hjs⟩ := presentIdx_mem _ _ _ (List.mem_of_mem_take hjT)
        refine congrArg (fun m : ℕ => ((m : ℕ) : ZMod 257)) ?_
        rw [rsShardByte, hval j hjn hjs]
        rfl
      rw [lagrangeEvalAt_congr _ _ _ _ hcongr,
        lagrange_reconstruction D (D + P) hDP (by omega)
          (fun i => ((shardByte S i k : ℕ) : ZMod 257))
          _ hTsub hTcard (hcode k hkk) t (Finset.mem_range.mpr ht),
        ZMod.val_natCast_of_lt (hbytes t k ht)]
      rw [shardByte, List.getD_eq_getElem S [] h2,
        List.getD_eq_getElem _ _ hk2]
  · -- surviving shard: returned unchanged
    have hvs := hval t ht (by rw [hsome]; rfl)
    rw [hsome] at hvs
    injection hvs with hinj
    rw [hinj]
    exact List.getD_eq_getElem S [] h2

/-- `Decode` after erasing at most `P` shards returns the concatenation of
the (reconstructed) data shards. -/
theorem Decode_masked (D P sz size : ℕ) (mask : List Bool)
    (S : List (List ℕ)) (hD : 0 < D) (hDP : D + P ≤ 257)
    (hS : S.length = D + P)
    (hSlen : ∀ t, t < D + P → (S.getD t []).length = size)
    (hcode : ∀ k, k < size → ∀ j ∈ Finset.range (D + P),
      ((shardByte S j k : ℕ) : ZMod 257)
        = lagrangeEvalAt (Finset.range D)
            (fun i => ((shardByte S i k : ℕ) : ZMod 257))
            ((j : ℕ) : ZMod 257))
    (hbytes : ∀ t k, t < D + P → shardByte S t k < 257)
    (hmask : mask.length = D + P)
    (hkill : ((List.range (D + P)).filter
      (fun t => mask.getD t false)).length ≤ P) :
    ErasureCoder.Decode ⟨D, P, sz⟩ (applyErasure mask S)
      = .ok (S.take D).flatten := by
  have hMlen : (applyErasure mask S).length = D + P := by
    rw [applyErasure_length, hmask, hS]
    omega
  rw [ErasureCoder.Decode, if_neg (by rw [hMlen]; exact fun h => h rfl),
    rsReconstruct_masked D P size mask S hD hDP hS hSlen hcode hbytes
      hmask hkill]

/-- C9: for the erasure coder with parameters `(D, P)`, both positive (and
within the codec's shard budget), `Encode(buf)` on a fresh coder yields
`D + P` shards, each of size `ceil(len(buf)/D)`, with `buf` copied into the
first `D` shards in order and zero-padded; and for every erasure pattern
that nulls at most `P` of the `D + P` shards, `Decode` on the surviving
shards returns the concatenation of the first `D` shards — `buf` followed
by the tail padding — so its first `len(buf)` bytes equal `buf`. -/
theorem c9_erasure_coder (D P : ℕ) (buf : List ℕ) (mask : List Bool)
    (hD : 0 < D) (hP : 0 < P) (hDP : D + P ≤ 256)
    (hbuf : ∀ b ∈ buf, b < 256) (hlen : 0 < buf.length)
    (hmask : mask.length = D + P)
    (hkill : ((List.range (D + P)).filter
      (fun t => mask.getD t false)).length ≤ P) :
    ∃ shards : List (List ℕ),
      ErasureCoder.Encode ⟨D, P, 0⟩ buf
        = .ok (⟨D, P, (buf.length + D - 1) / D⟩, shards) ∧
      shards.length = D + P ∧
      (∀ s ∈ shards, s.length = (buf.length + D - 1) / D) ∧
      (shards.take D).flatten
        = buf ++ List.replicate
            (D * ((buf.length + D - 1) / D) - buf.length) 0 ∧
      ErasureCoder.Decode ⟨D, P, (buf.length + D - 1) / D⟩
          (applyErasure mask shards)
        = .ok (buf ++ List.replicate
            (D * ((buf.length + D - 1) / D) - buf.length) 0) ∧
      (buf ++ List.replicate
          (D * ((buf.length + D - 1) / D) - buf.length) 0).take buf.length
        = buf := by
  have hsizepos : 0 < (buf.length + D - 1) / D := ceil_pos D buf.length hD hlen
  have hmul : buf.length ≤ D * ((buf.length + D - 1) / D) :=
    ceil_le_mul D buf.length hD
  have hcs : ErasureCoder.CalculateShardSize ⟨D, P, 0⟩ buf.length
      = (⟨D, P, (buf.length + D - 1) / D⟩, (buf.length + D - 1) / D) := by
    rw [ErasureCoder.CalculateShardSize, if_neg (by omega)]
  have hEnc := rsEncode_encodeShards D P buf ((buf.length + D - 1) / D)
    hD hsizepos
  have hSlen2 : ((List.range (D + P)).map (fun t =>
      if t < D then dataShardOf buf ((buf.length + D - 1) / D) t
      else rsParityShard D ((buf.length + D - 1) / D)
        (encodeShards D P buf ((buf.length + D - 1) / D)) t)).length
        = D + P := by
    simp
  have hall : ∀ s ∈ (List.range (D + P)).map (fun t =>
      if t < D then dataShardOf buf ((buf.length + D - 1) / D) t
      else rsParityShard D ((buf.length + D - 1) / D)
        (encodeShards D P buf ((buf.length + D - 1) / D)) t),
      s.length = (buf.length + D - 1) / D := by
    intro s hs
    obtain ⟨t, ht, rfl⟩ := List.mem_map.mp hs
    rcases Nat.lt_or_ge t D with h | h
    · rw [if_pos h]
      exact dataShardOf_length buf _ t
    · rw [if_neg (by omega)]
      exact rsParityShard_length D _ _ t
  have hgetDD : ∀ t, t < D + P →
      ((List.range (D + P)).map (fun t =>
        if t < D then dataShardOf buf ((buf.length + D - 1) / D) t
        else rsParityShard D ((buf.length + D - 1) / D)
          (encodeShards D P buf ((buf.length + D - 1) / D)) t)).getD t []
      = if t < D then dataShardOf buf ((buf.length + D - 1) / D) t
        else rsParityShard D ((buf.length + D - 1) / D)
          (encodeShards D P buf ((buf.length + D - 1) / D)) t :=
    fun t ht => getD_map_range _ _ t ht []
  have hgetDE : ∀ t, t < D + P →
      ((List.range (D + P)).map (fun t =>
        if t < D then dataShardOf buf ((buf.length + D - 1) / D) t
        else rsParityShard D ((buf.length + D - 1) / D)
          (encodeShards D P buf ((buf.length + D - 1) / D)) t)).getD t []
      = if t < D
        then (encodeShards D P buf ((buf.length + D - 1) / D)).getD t []
        else rsParityShard D ((buf.length + D - 1) / D)
          (encodeShards D P buf ((buf.length + D - 1) / D)) t := by
    intro t ht
    rw [hgetDD t ht]
    rcases Nat.lt_or_ge t D with h | h
    · rw [if_pos h, if_pos h, encodeShards_getD_lt D P buf _ t h]
    · rw [if_neg (by omega), if_neg (by omega)]
  have hSlen3 : ∀ t, t < D + P →
      (((List.range (D + P)).map (fun t =>
        if t < D then dataShardOf buf ((buf.length + D - 1) / D) t
        else rsParityShard D ((buf.length + D - 1) / D)
          (encodeShards D P buf ((buf.length + D - 1) / D)) t)).getD t
            []).length
        = (buf.length + D - 1) / D := by
    intro t ht
    rw [hgetDD t ht]
    rcases Nat.lt_or_ge t D with h | h
    · rw [if_pos h]
      exact dataShardOf_length buf _ t
    · rw [if_neg (by omega)]
      exact rsParityShard_length D _ _ t
  have hflat : (((List.range (D + P)).map (fun t =>
      if t < D then dataShardOf buf ((buf.length + D - 1) / D) t
      else rsParityShard D ((buf.length + D - 1) / D)
        (encodeShards D P buf ((buf.length + D - 1) / D)) t)).take
          D).flatten
      = buf ++ List.replicate
          (D * ((buf.length + D - 1) / D) - buf.length) 0 := by
    rw [← List.map_take, List.take_range,
      show min D (D + P) = D from by omega,
      List.map_congr_left (fun t ht =>
        if_pos (List.mem_range.mp ht))]
    exact dataShards_flatten buf D _ hmul
  refine ⟨(List.range (D + P)).map (fun t =>
      if t < D then dataShardOf buf ((buf.length + D - 1) / D) t
      else rsParityShard D ((buf.length + D - 1) / D)
        (encodeShards D P buf ((buf.length + D - 1) / D)) t),
    ?_, hSlen2, hall, hflat, ?_, List.take_left buf _⟩
  · rw [ErasureCoder.Encode, if_neg hD.ne', if_pos rfl, hcs, hEnc]
  · rw [Decode_masked D P ((buf.length + D - 1) / D)
      ((buf.length + D - 1) / D) mask _ hD (by omega) hSlen2 hSlen3
      (fun k hk => rs_codeword D P ((buf.length + D - 1) / D) k hD
        (by omega) hk (encodeShards D P buf ((buf.length + D - 1) / D))
        _ hgetDE)
      (fun t k ht => shard_bytes_lt D P ((buf.length + D - 1) / D) buf
        (encodeShards D P buf ((buf.length + D - 1) / D)) _ hbuf
        hgetDD t k ht)
      hmask hkill, hflat]

/-- C9 witness. -/
theorem c9_erasure_coder_witness :
    ∃ shards : List (List ℕ),
      ErasureCoder.Encode ⟨2, 2, 0⟩ [1, 2, 3] = .ok (⟨2, 2, 2⟩, shards) ∧
      shards.length = 4 ∧
      (∀ s ∈ shards, s.length = 2) ∧
      (shards.take 2).flatten = [1, 2, 3] ++ List.replicate 1 0 ∧
      ErasureCoder.Decode ⟨2, 2, 2⟩
          (applyErasure [true, false, false, true] shards)
        = .ok ([1, 2, 3] ++ List.replicate 1 0) ∧
      ([1, 2, 3] ++ List.replicate 1 0).take 3 = [1, 2, 3] := by
  exact c9_erasure_coder 2 2 [1, 2, 3] [true, false, false, true]
    (by decide) (by decide) (by decide) (by decide) (by decide) (by decide)
    (by decide)

end TrackShift
